import Mathlib

/-!
Verification of the fault-resistant partitioning tool (CEA-LIST).

This file shallowly embeds the core data structures and algorithms of the
tool (circuit loader, topological linearization, backward adjacency
computation, symbolic unroller fault allocation, partition refinement and
the output-integrity checker's optimizations) and proves properties of the
embedding that mirror the natural-language specification.
-/

namespace FaultPart

/-! ### Signals

Signal ids are non-negative integers (`signal_id_t`).  The four reserved
ids denote the constants 0, 1, X and Z. -/

abbrev Sig := Nat

/-- The reserved signal id `signal_id_t::S_0`. -/
def S0 : Sig := 0
/-- The reserved signal id `signal_id_t::S_1`. -/
def S1 : Sig := 1
/-- The reserved signal id `signal_id_t::S_X`. -/
def SX : Sig := 2
/-- The reserved signal id `signal_id_t::S_Z`. -/
def SZ : Sig := 3

/-- The four constant signals registered in every circuit. -/
def constSigs : Finset Sig := {S0, S1, SX, SZ}

/-! ### Cells

The port layout of the cell variants, as used by `Circuit.cpp`
(`UnaryPorts`, `BinaryPorts`, `MultiplexerPorts`, `DffPorts`, `DffrPorts`,
`DffePorts`, `DfferPorts`). -/

inductive Ports where
  | unary (a y : Sig)
  | binary (a b y : Sig)
  | mux (a b s y : Sig)
  | dff (c d q : Sig)
  | dffr (c d q r : Sig)
  | dffe (c d q e : Sig)
  | dffer (c d q r e : Sig)
  deriving DecidableEq, Repr

/-- A cell: a diagnostic name together with its typed ports. -/
structure Cell where
  name : String
  ports : Ports
  deriving DecidableEq, Repr

/-- The shared output slot of every cell variant
(`m_out_y` respectively `m_out_q`). -/
def Ports.output : Ports → Sig
  | .unary _ y => y
  | .binary _ _ y => y
  | .mux _ _ _ y => y
  | .dff _ _ q => q
  | .dffr _ _ q _ => q
  | .dffe _ _ q _ => q
  | .dffer _ _ q _ _ => q

/-- All input signals of a cell, including the clock and the
reset/enable control inputs of register variants; this is the set of
signals under which `build_adjacent_lists` files the cell in
`sig_to_cells`. -/
def Ports.inputs : Ports → List Sig
  | .unary a _ => [a]
  | .binary a b _ => [a, b]
  | .mux a b s _ => [a, b, s]
  | .dff c d _ => [d, c]
  | .dffr c d _ r => [d, c, r]
  | .dffe c d _ e => [d, c, e]
  | .dffer c d _ r e => [d, c, r, e]

/-- Whether the cell is one of the four register variants
(`is_register`). -/
def Ports.isReg : Ports → Bool
  | .dff _ _ _ => true
  | .dffr _ _ _ _ => true
  | .dffe _ _ _ _ => true
  | .dffer _ _ _ _ _ => true
  | _ => false

def Cell.output (c : Cell) : Sig := c.ports.output
def Cell.inputs (c : Cell) : List Sig := c.ports.inputs
def Cell.isReg (c : Cell) : Bool := c.ports.isReg

/-! ### SAT solver model

Solver variables are positive naturals; a literal is a non-zero integer
whose sign is the polarity, exactly as in the DIMACS-style interface
exposed by the solver wrapper (`add_clause(a, b, c)`, unary minus for
negation).  The solver state records the allocated variables and the
clause database. -/

abbrev Lit := Int

structure SolverState where
  numVars : Nat
  clauses : List (List Lit)
  deriving DecidableEq, Repr

/-- `Solver::new_var()`: allocate a fresh variable. -/
def newVar (s : SolverState) : Lit × SolverState :=
  ((s.numVars + 1 : Nat), { s with numVars := s.numVars + 1 })

/-- `Solver::add_clause`: append a clause to the database. -/
def addClause (s : SolverState) (c : List Lit) : SolverState :=
  { s with clauses := s.clauses ++ [c] }

/-- `fault_spec_t::induce_fault(normal)`: allocate a fresh variable and
add the four clauses binding it to `normal XOR f0` (utils.cpp, lines
519-529). -/
def induceFault (s : SolverState) (normal f0 : Lit) : Lit × SolverState :=
  let (y, s1) := newVar s
  let s2 := addClause s1 [normal, f0, -y]
  let s3 := addClause s2 [-normal, f0, y]
  let s4 := addClause s3 [normal, -f0, y]
  let s5 := addClause s4 [-normal, -f0, -y]
  (y, s5)

/-- Truth value of a literal under an assignment of the variables. -/
def satLit (σ : Nat → Bool) (l : Lit) : Bool :=
  if 0 ≤ l then σ l.natAbs else !(σ l.natAbs)

/-- Truth value of a clause (a disjunction of its literals). -/
def satClause (σ : Nat → Bool) (c : List Lit) : Bool :=
  c.any (satLit σ)

/-- The four clauses that the specification ascribes to
`induce_fault`: `{x, f0, ¬y}, {¬x, f0, y}, {x, ¬f0, y}, {¬x, ¬f0, ¬y}`. -/
def xorClauses (x f0 y : Lit) : List (List Lit) :=
  [[x, f0, -y], [-x, f0, y], [x, -f0, y], [-x, -f0, -y]]

/-! ### Netlist loader: per-cell processing

The loader of `Circuit.cpp` (lines 79-188) processes each cell entry of
the netlist in declaration order.  Connections are modelled as
already-resolved signal ids keyed by port letter (the JSON decoding is an
external collaborator). -/

inductive LoadError where
  | ILLEGAL_PORT_DIRECTION
  | ILLEGAL_SIGNAL_LIST
  | ILLEGAL_NAME_REDECLARATION
  | ILLEGAL_CELL_TYPE
  | ILLEGAL_CELL_CYCLE
  | ILLEGAL_MISSING_SIGNALS
  | ILLEGAL_CLOCK_SIGNAL
  | ILLEGAL_MULTIPLE_CLOCKS
  | ILLEGAL_CLOCK_EDGE
  | ILLEGAL_SUBCIRCUIT_MISSING_INPUT
  | ILLEGAL_SUBCIRCUIT_IMPLICIT_TOPMOD_OUTPUT
  | MISSING_CONNECTION
  deriving DecidableEq, Repr

/-- Resolved connections of one netlist cell entry: the first bit of each
connected port letter, when present. -/
structure Conns where
  a : Option Sig := none
  b : Option Sig := none
  s : Option Sig := none
  c : Option Sig := none
  d : Option Sig := none
  q : Option Sig := none
  r : Option Sig := none
  e : Option Sig := none
  y : Option Sig := none
  deriving DecidableEq, Repr

/-- `connections.at(letter).at(0)`: a missing connection raises
(json `out_of_range`, modelled as a load error). -/
def getConn (o : Option Sig) : Except LoadError Sig :=
  match o with
  | none => .error .MISSING_CONNECTION
  | some s => .ok s

/-- The class of a cell type within the closed enumeration, as
discriminated by `is_unary` / `is_binary` / `is_multiplexer` /
`is_register` together with `dff_has_reset` / `dff_has_enable`. -/
inductive CellClass where
  | unary
  | binary
  | mux
  | dff
  | dffr
  | dffe
  | dffer
  deriving DecidableEq, Repr

/-- Modelled from the spec: `cell_type_from_string` (declared in the
`cell_types` unit, whose header is not part of the available sources)
maps a Yosys type string to the closed cell-type enumeration, returning
`CELL_NONE` (here `none`) for every string outside the enumeration.  The
table lists one representative string per variant class of the
enumeration described in the specification (unary, binary, multiplexer
and the four register variants). -/
def knownCellTypes : List (String × CellClass) :=
  [("$_BUF_", .unary), ("$_NOT_", .unary),
   ("$_AND_", .binary), ("$_OR_", .binary), ("$_XOR_", .binary),
   ("$_XNOR_", .binary), ("$_NAND_", .binary), ("$_NOR_", .binary),
   ("$_MUX_", .mux),
   ("$_DFF_P_", .dff), ("$_DFF_N_", .dff),
   ("$_SDFF_PP0_", .dffr),
   ("$_DFFE_PP_", .dffe),
   ("$_SDFFE_PP0P_", .dffer)]

/-- Modelled from the spec: lookup into the closed cell-type
enumeration; `none` plays the role of `CELL_NONE`. -/
def cellTypeFromString (s : String) : Option CellClass :=
  (knownCellTypes.lookup s)

/-- The loader state while processing the cell table: the known-signal
set, the pending (`missing`) set, the register-output set and the cells
accumulated so far. -/
structure LoadSt where
  signals : Finset Sig
  missing : Finset Sig
  regOuts : Finset Sig
  cells : List Cell
  deriving DecidableEq

/-- Add an input signal to `missing` when it is not yet known
(`if(m_signals.find(x) == m_signals.end()) missing.insert(x)`). -/
def noteMissing (st : LoadSt) (x : Sig) : LoadSt :=
  if x ∈ st.signals then st else { st with missing := insert x st.missing }

/-- Record a produced output: add it to the known signals and erase it
from the pending set. -/
def noteOutput (st : LoadSt) (y : Sig) : LoadSt :=
  { st with signals := insert y st.signals, missing := st.missing.erase y }

/-- Processing of one typed cell of the netlist by the loader
(`Circuit.cpp`, lines 98-187): resolve the connections, check for
cell-level cycles, track missing inputs, register the output and append
the cell.  The `assert(m_signals.find(y) == m_signals.end())` of the
source is modelled as the redeclaration failure the specification
describes. -/
def loadCell (st : LoadSt) (name : String) (cls : CellClass) (conns : Conns) :
    Except LoadError LoadSt :=
  match cls with
  | .unary => do
      let a ← getConn conns.a
      let y ← getConn conns.y
      if a = y then throw .ILLEGAL_CELL_CYCLE else
      let st := noteMissing st a
      if y ∈ st.signals then throw .ILLEGAL_NAME_REDECLARATION else
      let st := noteOutput st y
      pure { st with cells := st.cells ++ [⟨name, .unary a y⟩] }
  | .binary => do
      let a ← getConn conns.a
      let b ← getConn conns.b
      let y ← getConn conns.y
      if a = y then throw .ILLEGAL_CELL_CYCLE else
      if b = y then throw .ILLEGAL_CELL_CYCLE else
      let st := noteMissing st a
      let st := noteMissing st b
      if y ∈ st.signals then throw .ILLEGAL_NAME_REDECLARATION else
      let st := noteOutput st y
      pure { st with cells := st.cells ++ [⟨name, .binary a b y⟩] }
  | .mux => do
      let a ← getConn conns.a
      let b ← getConn conns.b
      let s ← getConn conns.s
      let y ← getConn conns.y
      if a = y then throw .ILLEGAL_CELL_CYCLE else
      if b = y then throw .ILLEGAL_CELL_CYCLE else
      if s = y then throw .ILLEGAL_CELL_CYCLE else
      let st := noteMissing st a
      let st := noteMissing st b
      let st := noteMissing st s
      if y ∈ st.signals then throw .ILLEGAL_NAME_REDECLARATION else
      let st := noteOutput st y
      pure { st with cells := st.cells ++ [⟨name, .mux a b s y⟩] }
  | .dff => do
      let c ← getConn conns.c
      let d ← getConn conns.d
      let q ← getConn conns.q
      if c = q then throw .ILLEGAL_CELL_CYCLE else
      let st := noteMissing st c
      let st := noteMissing st d
      if q ∈ st.signals then throw .ILLEGAL_NAME_REDECLARATION else
      let st := noteOutput st q
      pure { st with regOuts := insert q st.regOuts,
                     cells := st.cells ++ [⟨name, .dff c d q⟩] }
  | .dffr => do
      let c ← getConn conns.c
      let d ← getConn conns.d
      let q ← getConn conns.q
      if c = q then throw .ILLEGAL_CELL_CYCLE else
      let st := noteMissing st c
      let st := noteMissing st d
      if q ∈ st.signals then throw .ILLEGAL_NAME_REDECLARATION else
      let r ← getConn conns.r
      if r = q then throw .ILLEGAL_CELL_CYCLE else
      let st := noteMissing st r
      let st := noteOutput st q
      pure { st with regOuts := insert q st.regOuts,
                     cells := st.cells ++ [⟨name, .dffr c d q r⟩] }
  | .dffe => do
      let c ← getConn conns.c
      let d ← getConn conns.d
      let q ← getConn conns.q
      if c = q then throw .ILLEGAL_CELL_CYCLE else
      let st := noteMissing st c
      let st := noteMissing st d
      if q ∈ st.signals then throw .ILLEGAL_NAME_REDECLARATION else
      let e ← getConn conns.e
      if e = q then throw .ILLEGAL_CELL_CYCLE else
      let st := noteMissing st e
      let st := noteOutput st q
      pure { st with regOuts := insert q st.regOuts,
                     cells := st.cells ++ [⟨name, .dffe c d q e⟩] }
  | .dffer => do
      let c ← getConn conns.c
      let d ← getConn conns.d
      let q ← getConn conns.q
      if c = q then throw .ILLEGAL_CELL_CYCLE else
      let st := noteMissing st c
      let st := noteMissing st d
      if q ∈ st.signals then throw .ILLEGAL_NAME_REDECLARATION else
      let r ← getConn conns.r
      let e ← getConn conns.e
      if r = q then throw .ILLEGAL_CELL_CYCLE else
      if e = q then throw .ILLEGAL_CELL_CYCLE else
      let st := noteMissing st r
      let st := noteMissing st e
      let st := noteOutput st q
      pure { st with regOuts := insert q st.regOuts,
                     cells := st.cells ++ [⟨name, .dffer c d q r e⟩] }

/-- The inputs of a cell that the loader tests against the output for a
cell-level cycle: every input of a combinational cell, and the clock,
reset and enable inputs (but not `D`) of a register. -/
def cycleCheckedInputs : Ports → List Sig
  | .unary a _ => [a]
  | .binary a b _ => [a, b]
  | .mux a b s _ => [a, b, s]
  | .dff c _ _ => [c]
  | .dffr c _ _ r => [c, r]
  | .dffe c _ _ e => [c, e]
  | .dffer c _ _ r e => [c, r, e]

/-- The cell class of a port layout. -/
def classOfPorts : Ports → CellClass
  | .unary _ _ => .unary
  | .binary _ _ _ => .binary
  | .mux _ _ _ _ => .mux
  | .dff _ _ _ => .dff
  | .dffr _ _ _ _ => .dffr
  | .dffe _ _ _ _ => .dffe
  | .dffer _ _ _ _ _ => .dffer

/-- The connection table matching a port layout. -/
def connsOfPorts : Ports → Conns
  | .unary a y => { a := some a, y := some y }
  | .binary a b y => { a := some a, b := some b, y := some y }
  | .mux a b s y => { a := some a, b := some b, s := some s, y := some y }
  | .dff c d q => { c := some c, d := some d, q := some q }
  | .dffr c d q r => { c := some c, d := some d, q := some q, r := some r }
  | .dffe c d q e => { c := some c, d := some d, q := some q, e := some e }
  | .dffer c d q r e =>
    { c := some c, d := some d, q := some q, r := some r, e := some e }

/-- Processing of one raw cell entry (`Circuit.cpp`, lines 82-95): the
`$assert` type is skipped before the enumeration lookup; any other
string outside the enumeration fails with `ILLEGAL_CELL_TYPE`. -/
def processCellEntry (st : LoadSt) (name typeStr : String) (conns : Conns) :
    Except LoadError LoadSt :=
  if typeStr = "$assert" then .ok st
  else
    match cellTypeFromString typeStr with
    | none => .error .ILLEGAL_CELL_TYPE
    | some cls => loadCell st name cls conns

/-! ### Circuit

A loaded circuit as far as the orderings and adjacency computations are
concerned: the primary inputs (in the iteration order of the loader),
the output-port set, and the ordered cell list. -/

structure Circ where
  ins : List Sig
  outPorts : Finset Sig
  cells : List Cell

/-! ### Topological linearization (`Circuit.cpp`, lines 234-294)

The visited-signal set is seeded with the input ports, the four
constants and the register outputs; the registers are emitted first, and
then the cell list is scanned repeatedly, emitting every combinational
cell whose inputs are all visited. -/

/-- The seed state: visited signals are inputs, constants and register
outputs; the emitted order starts with all register cells. -/
def topoInit (cells : List Cell) (inPorts : Finset Sig) : Finset Sig × List Cell :=
  let regs := cells.filter (·.isReg)
  (inPorts ∪ constSigs ∪ (regs.map Cell.output).toFinset, regs)

/-- One scan of the cell list (the body of the `while` loop): each
not-yet-emitted combinational cell whose inputs are all visited is
appended to the order and its output marked visited.  Register cells are
always already emitted (they are seeded), matching the
`assert(!is_register(type))` of the source. -/
def topoPass (cells : List Cell) (st : Finset Sig × List Cell) : Finset Sig × List Cell :=
  cells.foldl (fun st c =>
    if st.2.contains c then st
    else
      match c.ports with
      | .unary a y =>
          if a ∈ st.1 then (insert y st.1, st.2 ++ [c]) else st
      | .binary a b y =>
          if a ∈ st.1 ∧ b ∈ st.1 then (insert y st.1, st.2 ++ [c]) else st
      | .mux a b s y =>
          if a ∈ st.1 ∧ b ∈ st.1 ∧ s ∈ st.1 then (insert y st.1, st.2 ++ [c]) else st
      | _ => st) st

/-- Iterated scans; the source loops until all cells are emitted, so the
final order is `(topoIter cells n (topoInit cells ins)).2` for a large
enough `n`. -/
def topoIter (cells : List Cell) : Nat → Finset Sig × List Cell → Finset Sig × List Cell
  | 0, st => st
  | n + 1, st => topoIter cells n (topoPass cells st)

/-- A default cell, used only as the `getD` fallback in statements. -/
def dummyCell : Cell := ⟨"", .unary 0 0⟩

/-- The register-output set of a cell list. -/
def regOutsOf (cells : List Cell) : Finset Sig :=
  ((cells.filter (·.isReg)).map Cell.output).toFinset

/-- The invariant maintained by the linearization loop: the visited
signals are the inputs, the constants and the outputs of the emitted
cells; the emitted order is the registers followed by combinational
cells only; and every emitted combinational cell reads only inputs,
constants, or outputs of cells emitted before it. -/
def topoInv (cells : List Cell) (ins : Finset Sig)
    (st : Finset Sig × List Cell) : Prop :=
  st.1 = ins ∪ constSigs ∪ (st.2.map Cell.output).toFinset ∧
  (∃ rest, st.2 = cells.filter (·.isReg) ++ rest ∧
    ∀ c ∈ rest, c.isReg = false) ∧
  ∀ i, i < st.2.length → (st.2.getD i dummyCell).isReg = false →
    ∀ s ∈ (st.2.getD i dummyCell).inputs,
      s ∈ ins ∪ constSigs ∪ ((st.2.take i).map Cell.output).toFinset

/-! ### Backward adjacency computation (`build_adjacent_lists`)

`sig_order` lists the constants, the non-constant input ports and all
cell outputs in topological order; the backward pass processes it in
reverse, so the recursion below on the remainder of the order list
computes exactly the value stored into `d_connected_outs[s]`
(respectively `d_connected_regs[s]`).  The interning of shared set
pointers in the source does not change the computed sets. -/

/-- The ordered signal list built by `build_adjacent_lists`
(lines 767-789). -/
def sigOrder (C : Circ) : List Sig :=
  [S0, S1, SX, SZ] ++ C.ins.filter (fun s => decide (s ∉ constSigs)) ++
    C.cells.map Cell.output

/-- The combinational cells having `s` among their inputs: the
non-register part of `sig_to_cells[s]`. -/
def combSuccs (cells : List Cell) (s : Sig) : List Cell :=
  cells.filter (fun c => !c.isReg && c.inputs.contains s)

/-- The register cells having `s` among their inputs: the register part
of `sig_to_cells[s]`. -/
def regSuccs (cells : List Cell) (s : Sig) : List Cell :=
  cells.filter (fun c => c.isReg && c.inputs.contains s)

/-- The value of `d_connected_outs[t]` computed by the backward pass
when the signals of `order` remain to be processed (front of the list =
processed last, hence computed from the values of the tail). -/
def connOutsGo (cells : List Cell) (outs : Finset Sig) : List Sig → Sig → Finset Sig
  | [], _ => ∅
  | s :: rest, t =>
    if t = s then
      (if s ∈ outs then {s} else ∅) ∪
        (combSuccs cells s).foldl
          (fun acc c => acc ∪ connOutsGo cells outs rest c.output) ∅
    else connOutsGo cells outs rest t

/-- The value of `d_connected_regs[t]` computed by the backward pass. -/
def connRegsGo (cells : List Cell) : List Sig → Sig → Finset Sig
  | [], _ => ∅
  | s :: rest, t =>
    if t = s then
      ((regSuccs cells s).map Cell.output).toFinset ∪
        (combSuccs cells s).foldl
          (fun acc c => acc ∪ connRegsGo cells rest c.output) ∅
    else connRegsGo cells rest t

/-- `conn_outs(s)` after `build_adjacent_lists`. -/
def connOuts (C : Circ) (s : Sig) : Finset Sig :=
  connOutsGo C.cells C.outPorts (sigOrder C) s

/-- `conn_regs(s)` after `build_adjacent_lists`. -/
def connRegs (C : Circ) (s : Sig) : Finset Sig :=
  connRegsGo C.cells (sigOrder C) s

/-- Topological well-formedness of an order list: every combinational
successor of a listed signal has its output strictly later in the list.
This is the property the loader's linearization establishes for
`sig_order`. -/
def topoOk (cells : List Cell) : List Sig → Bool
  | [] => true
  | s :: rest =>
    (cells.all (fun c =>
      if !c.isReg && c.inputs.contains s then rest.contains c.output else true)) &&
    topoOk cells rest

/-- Forward combinational reachability: `CombReach cells s t` holds when
`t` can be reached from `s` by repeatedly stepping from an input of a
non-register cell to that cell's output. -/
inductive CombReach (cells : List Cell) : Sig → Sig → Prop
  | refl (s : Sig) : CombReach cells s s
  | step {s t : Sig} (c : Cell) : c ∈ cells → c.isReg = false → s ∈ c.inputs →
      CombReach cells c.output t → CombReach cells s t

/-! ### Fault-selector allocation while unrolling

`unroll_init_with_faults` and `unroll_with_faults` (utils.cpp) populate,
for the produced cycle, a map from signal to fault selector.  The
definitions below compute the list of map keys in allocation order; the
solver-side effects (gate emission and variable allocation) do not
influence which keys are allocated. -/

/-- The signals given a fault selector at cycle 0
(`unroll_init_with_faults`): every input in `faultable_sigs`, then every
combinational cell output in `faultable_sigs`. -/
def unrollInitFaultSigs (C : Circ) (fSigs : Finset Sig) : List Sig :=
  let inFaults := C.ins.foldl
    (fun acc sig => if sig ∈ fSigs then acc ++ [sig] else acc) []
  C.cells.foldl (fun acc c =>
    if c.isReg then acc
    else if c.output ∈ fSigs then acc ++ [c.output] else acc) inFaults

/-- The signals given a fault selector at a cycle `t > 0`
(`unroll_with_faults`): every input in `faultable_sigs`, and every
combinational cell output in `faultable_sigs` whose `conn_outs` set
contains an alert signal. -/
def unrollStepFaultSigs (C : Circ) (fSigs alerts : Finset Sig)
    (connOutsF : Sig → Finset Sig) : List Sig :=
  let inFaults := C.ins.foldl
    (fun acc sig => if sig ∈ fSigs then acc ++ [sig] else acc) []
  C.cells.foldl (fun acc c =>
    if c.isReg then acc
    else if c.output ∈ fSigs then
      if (connOutsF c.output).filter (· ∈ alerts) ≠ ∅ then acc ++ [c.output]
      else acc
    else acc) inFaults

/-! ### Partitionings (Procedure 1)

A partitioning is an ordered sequence of partitions of the
register-output set.  `init_partitions_from_scratch` builds the
singleton partitioning; the merge step of the refinement loop unions the
next-cycle-faulty partitions bucket-wise, appends the merged partitions
and erases the merged-away ones (k-partitions.cpp, lines 380-438). -/

/-- A valid partitioning of the register-output set `R`: non-empty,
pairwise disjoint partitions whose union is `R`. -/
def validPartitioning (R : Finset Sig) (ps : List (Finset Sig)) : Prop :=
  (∀ p ∈ ps, p.Nonempty) ∧ ps.Pairwise (fun p q => Disjoint p q) ∧
    ps.foldr (· ∪ ·) ∅ = R

/-- `init_partitions_from_scratch`: one singleton partition per register
output. -/
def initPartitionsFromScratch (regs : List Sig) : List (Finset Sig) :=
  regs.map (fun r => {r})

/-- The union of the partitions selected by one merge bucket. -/
def bucketUnion (ps : List (Finset Sig)) (b : List Nat) : Finset Sig :=
  b.foldl (fun acc i => acc ∪ ps.getD i ∅) ∅

/-- Erase the partitions at the indices in `rem` (the loop over
`removed_next` with its shifting-index bookkeeping keeps exactly the
entries whose original index is not removed); `i` is the original index
of the first remaining entry. -/
def removeIdxsGo (rem : List Nat) : Nat → List (Finset Sig) → List (Finset Sig)
  | _, [] => []
  | i, p :: ps =>
    if rem.contains i then removeIdxsGo rem (i + 1) ps
    else p :: removeIdxsGo rem (i + 1) ps

/-- Erase the partitions at the given indices. -/
def removeIdxs (ps : List (Finset Sig)) (rem : List Nat) : List (Finset Sig) :=
  removeIdxsGo rem 0 ps

/-- One merge step of the refinement loop: every bucket of
next-cycle-faulty indices becomes a new merged partition appended to the
partitioning, and the merged-away partitions are removed. -/
def mergeStep (ps : List (Finset Sig)) (buckets : List (List Nat)) : List (Finset Sig) :=
  removeIdxs ps buckets.flatten ++ buckets.map (bucketUnion ps)

/-! ### Procedure 2 up-front optimizations (k-partitions.cpp, lines 563-634) -/

/-- A permanent unit clause added by the optimizations: either
`¬part_diff_0[idx]` or `¬f0` of the selector of `sig`. -/
inductive PermClause where
  | notPartDiff (idx : Nat)
  | notF0 (sig : Sig)
  deriving DecidableEq, Repr

/-- The primary outputs: the circuit outputs that are not alert
signals. -/
def primaryOutputs (outs alerts : Finset Sig) : Finset Sig :=
  outs.filter (fun s => s ∉ alerts)

/-- The permanent unit clauses added by the up-front optimizations of
Procedure 2: `¬part_diff_0[idx]` for every partition whose union of
`conn_outs` misses the primary outputs, and `¬f0` for every fault
selector of cycle 0 whose `conn_outs` misses the primary outputs. -/
def proc2OptimClauses (partitions : List (Finset Sig)) (connOutsF : Sig → Finset Sig)
    (primaryOuts : Finset Sig) (combFaults : List (List Sig)) : List PermClause :=
  let partClauses := (List.range partitions.length).foldl (fun acc idx =>
    if ((partitions.getD idx ∅).biUnion connOutsF ∩ primaryOuts) = ∅ then
      acc ++ [PermClause.notPartDiff idx]
    else acc) []
  let combClauses := (combFaults.getD 0 []).foldl (fun acc sig =>
    if (connOutsF sig ∩ primaryOuts) = ∅ then acc ++ [PermClause.notF0 sig]
    else acc) []
  partClauses ++ combClauses

/-! ### Bit labels (`VerilogId.h` and `Circuit::add_bit_names`) -/

structure VerilogId where
  name : String
  pos : Nat
  deriving DecidableEq, Repr

/-- The hierarchical depth computed by the `VerilogId` constructor: the
number of `.` separators plus one. -/
def vidDepth (s : String) : Nat := s.toList.count '.' + 1

/-- The compiler-synthesized-name heuristic: `name().find('_') == 0`,
i.e. the first character of the name is an underscore. -/
def vidSynth (s : String) : Bool := s.toList.head? == some '_'

/-- `operator<` on `VerilogId` (VerilogId.h, lines 46-61): prefer
non-synthesized names, then smaller depth, then shorter length. -/
def vidLt (a b : VerilogId) : Bool :=
  if vidSynth b.name && !vidSynth a.name then true
  else if !vidSynth b.name && vidSynth a.name then false
  else if vidDepth a.name < vidDepth b.name then true
  else if vidDepth a.name > vidDepth b.name then false
  else a.name.length < b.name.length

/-- One label insertion of `add_bit_names` (Circuit.cpp, lines 662-666):
the first occurrence is stored via `emplace`; for a later occurrence the
`else if (vid < found->second)` branch calls `emplace_hint` on a key
already present in the `unordered_map`, which inserts nothing, so the
stored label is left unchanged no matter how the labels compare. -/
def bitNameInsert (m : Sig → Option VerilogId) (sig : Sig) (vid : VerilogId) :
    Sig → Option VerilogId :=
  fun t =>
    if t = sig then
      match m sig with
      | none => some vid
      | some cur => some cur
    else m t

/-- `Circuit::add_bit_names` on one named net: insert the label
`(name, pos)` for the bit at each position. -/
def addBitNames (m : Sig → Option VerilogId) (name : String) (bits : List Sig) :
    Sig → Option VerilogId :=
  bits.enum.foldl (fun m p => bitNameInsert m p.2 ⟨name, p.1⟩) m

/-- The bit-label map after processing a sequence of named nets in
declaration order. -/
def bitNameMap (decls : List (String × List Sig)) : Sig → Option VerilogId :=
  decls.foldl (fun m d => addBitNames m d.1 d.2) (fun _ => none)

/-- All `(name, position)` labels a signal appears under, in encounter
order. -/
def occsOf (decls : List (String × List Sig)) (sig : Sig) : List VerilogId :=
  match decls with
  | [] => []
  | d :: rest =>
    d.2.enum.filterMap (fun p => if p.2 = sig then some ⟨d.1, p.1⟩ else none) ++
      occsOf rest sig

/-- Modelled from the spec: the preferred label among a signal's
occurrences, the minimum of the `operator<` preference order with the
first-encountered label kept when neither is strictly preferred.  Kept
as a second definition to compare with the label the program stores. -/
def specBitLabel (v0 : VerilogId) (vs : List VerilogId) : VerilogId :=
  vs.foldl (fun acc v => if vidLt v acc then v else acc) v0

/-! ### Subcircuit extraction (`Circuit.cpp`, lines 374-654)

The second `Circuit` constructor carves out the sub-DAG of a top-level
circuit reachable backwards from the declared subcircuit outputs.  The
member initializer list sets `m_sig_clock(signal_id_t::S_0)` and the
constructor body never assigns the clock again, nor does it run any of
the clock checks of the netlist constructor. -/

/-- The full circuit state the constructors build. -/
structure CircuitSt where
  moduleName : String
  inPorts : Finset Sig
  outPorts : Finset Sig
  regOuts : Finset Sig
  signals : Finset Sig
  cells : List Cell
  nameBits : List (String × List Sig)
  bitName : Sig → Option VerilogId
  sigClock : Sig

/-- A port declaration of the subcircuit interface, with its bits
already resolved to signal ids. -/
structure PortDecl where
  name : String
  direction : String
  bits : List Sig

/-- Register the interface ports (lines 391-435): validate the
direction, fail on name redeclaration, record the name and the bit
labels, and file the bits in the input/output port sets (input bits are
also added to the known signals). -/
def registerPorts (init : CircuitSt) (ports : List PortDecl) :
    Except LoadError CircuitSt :=
  ports.foldlM (fun st p => do
    if p.direction ≠ "input" ∧ p.direction ≠ "output" then
      throw .ILLEGAL_PORT_DIRECTION
    else if (st.nameBits.lookup p.name).isSome then
      throw .ILLEGAL_NAME_REDECLARATION
    else
      let st := { st with nameBits := st.nameBits ++ [(p.name, p.bits)],
                          bitName := addBitNames st.bitName p.name p.bits }
      if p.direction = "input" then
        pure { st with inPorts := st.inPorts ∪ p.bits.toFinset,
                       signals := st.signals ∪ p.bits.toFinset }
      else
        pure { st with outPorts := st.outPorts ∪ p.bits.toFinset }) init

/-- The state of the backward-exploration loop. -/
structure SubSt where
  visitedSigs : Finset Sig
  visitedCells : List Cell
  regOuts : Finset Sig

/-- Visit one cell of the top circuit during the backward exploration
(lines 447-511): skip it unless its output is a visited signal that is
not a subcircuit input; otherwise collect its inputs, failing when an
input is a top-level input missing from the subcircuit interface. -/
def subVisitCell (topIns subIns : Finset Sig) (st : SubSt) (c : Cell) :
    Except LoadError SubSt :=
  if st.visitedCells.contains c then .ok st
  else if c.output ∉ st.visitedSigs then .ok st
  else if c.output ∈ subIns then .ok st
  else do
    let vs ← c.inputs.foldlM (fun (vs : Finset Sig) sigIn =>
      if sigIn ∈ topIns ∧ sigIn ∉ subIns then
        throw .ILLEGAL_SUBCIRCUIT_MISSING_INPUT
      else pure (insert sigIn vs)) st.visitedSigs
    pure { visitedSigs := vs,
           visitedCells := st.visitedCells ++ [c],
           regOuts := if c.isReg then insert c.output st.regOuts else st.regOuts }

/-- One scan over the top circuit's cells in reverse order. -/
def subPass (top : CircuitSt) (subIns : Finset Sig) (st : SubSt) :
    Except LoadError SubSt :=
  top.cells.reverse.foldlM (subVisitCell top.inPorts subIns) st

/-- The `while (visited_sigs.size() != visited_sigs_size)` loop,
iterated with explicit fuel. -/
def subExplore (top : CircuitSt) (subIns : Finset Sig) :
    Nat → Nat → SubSt → Except LoadError SubSt
  | 0, _, st => .ok st
  | fuel + 1, prevSize, st =>
    if st.visitedSigs.card = prevSize then .ok st
    else do
      let st' ← subPass top subIns st
      subExplore top subIns fuel st.visitedSigs.card st'

/-- Copy a net name into the subcircuit when it intersects the copied
signals, enforcing bit-exact redeclarations (lines 607-653). -/
def copyNetName (st : CircuitSt) (nb : String × List Sig) :
    Except LoadError CircuitSt :=
  match st.nameBits.lookup nb.1 with
  | some other =>
    if other = nb.2 then .ok st else throw .ILLEGAL_NAME_REDECLARATION
  | none =>
    if nb.2.any (fun sig => sig ∈ st.signals) then
      .ok { st with nameBits := st.nameBits ++ [nb],
                    bitName := addBitNames st.bitName nb.1 nb.2 }
    else .ok st

/-- The subcircuit-extraction constructor: register the interface
ports, explore the top circuit backwards from the subcircuit outputs,
check for implicit top-module outputs, and copy the visited cells,
signals and intersecting net names.  The clock member keeps its
initializer value `S_0` throughout. -/
def extractSubcircuit (top : CircuitSt) (moduleName : String)
    (ports : List PortDecl) (fuel : Nat) : Except LoadError CircuitSt := do
  let init : CircuitSt :=
    { moduleName := moduleName, inPorts := ∅, outPorts := ∅, regOuts := ∅,
      signals := constSigs, cells := [], nameBits := [],
      bitName := fun _ => none, sigClock := S0 }
  let st ← registerPorts init ports
  let sub ← subExplore top st.inPorts fuel 0
    { visitedSigs := st.outPorts, visitedCells := [], regOuts := ∅ }
  if (sub.visitedSigs.filter (fun sig =>
      sig ∉ constSigs ∧ sig ∈ top.outPorts ∧ sig ∉ st.outPorts)) ≠ ∅ then
    throw .ILLEGAL_SUBCIRCUIT_IMPLICIT_TOPMOD_OUTPUT
  else
    let st := { st with
      signals := st.signals ∪ sub.visitedSigs,
      regOuts := sub.regOuts,
      cells := top.cells.filter (fun c => sub.visitedCells.contains c) }
    top.nameBits.foldlM copyNetName st

/-- A concrete top-level circuit with one register, used to exhibit the
behaviour of the subcircuit extractor on register-containing slices. -/
def exTop : CircuitSt :=
  { moduleName := "top", inPorts := {10, 11}, outPorts := {12},
    regOuts := {12}, signals := {0, 1, 2, 3, 10, 11, 12},
    cells := [⟨"rg", .dff 10 11 12⟩], nameBits := [],
    bitName := fun _ => none, sigClock := 10 }

/-- A subcircuit interface selecting the register of `exTop`. -/
def exPorts : List PortDecl :=
  [⟨"ci", "input", [10]⟩, ⟨"di", "input", [11]⟩, ⟨"qo", "output", [12]⟩]

/-! ## Theorems -/

theorem satLit_neg (σ : Nat → Bool) (l : Int) (h : l ≠ 0) :
    satLit σ (-l) = !(satLit σ l) := by
  by_cases hl : (0 : Int) ≤ l
  · have h2 : ¬((0 : Int) ≤ -l) := by omega
    simp [satLit, hl, h2, Int.natAbs_neg]
  · have h2 : (0 : Int) ≤ -l := by omega
    simp [satLit, hl, h2, Int.natAbs_neg]

theorem ok_bind {α β : Type} (a : α) (f : α → Except LoadError β) :
    (Except.ok a >>= f : Except LoadError β) = f a := rfl

theorem throw_err {β : Type} (e : LoadError) :
    (throw e : Except LoadError β) = .error e := rfl

theorem pure_ok {β : Type} (b : β) :
    (pure b : Except LoadError β) = .ok b := rfl

theorem noteMissing_signals (st : LoadSt) (x : Sig) :
    (noteMissing st x).signals = st.signals := by
  unfold noteMissing
  split <;> rfl

/-- C3: `induce_fault(x)` allocates a fresh solver variable `y` and adds
exactly the four clauses `{x, f0, ¬y}`, `{¬x, f0, y}`, `{x, ¬f0, y}`,
`{¬x, ¬f0, ¬y}`; in every assignment satisfying them, `y = x XOR f0`,
hence `y = x` when `f0` is 0 and `y = ¬x` when `f0` is 1. -/
theorem induce_fault_correct (s : SolverState) (x f0 y : Lit) (s' : SolverState)
    (hx : x ≠ 0) (hf : f0 ≠ 0) (h : induceFault s x f0 = (y, s')) :
    y = ((s.numVars + 1 : Nat) : Int) ∧
    s'.clauses = s.clauses ++ xorClauses x f0 y ∧
    ∀ σ : Nat → Bool,
      ((xorClauses x f0 y).all (satClause σ) = true ↔
        satLit σ y = xor (satLit σ x) (satLit σ f0)) ∧
      (satLit σ f0 = false → (xorClauses x f0 y).all (satClause σ) = true →
        satLit σ y = satLit σ x) ∧
      (satLit σ f0 = true → (xorClauses x f0 y).all (satClause σ) = true →
        satLit σ y = !(satLit σ x)) := by
  simp only [induceFault, newVar, addClause, Prod.mk.injEq] at h
  obtain ⟨hy, hs⟩ := h
  subst hy
  have hy0 : ((s.numVars + 1 : Nat) : Int) ≠ 0 := by
    omega
  refine ⟨rfl, ?_, ?_⟩
  · rw [← hs]; simp [xorClauses]
  · intro σ
    have hiff : (xorClauses x f0 ((s.numVars + 1 : Nat) : Int)).all (satClause σ) = true ↔
        satLit σ ((s.numVars + 1 : Nat) : Int) = xor (satLit σ x) (satLit σ f0) := by
      simp only [xorClauses, List.all_cons, List.all_nil, satClause, List.any_cons,
        List.any_nil, Bool.and_true, Bool.or_false, Bool.and_eq_true, Bool.or_eq_true]
      rw [satLit_neg σ x hx, satLit_neg σ f0 hf, satLit_neg σ _ hy0]
      cases satLit σ x <;> cases satLit σ f0 <;>
        cases satLit σ ((s.numVars + 1 : Nat) : Int) <;> simp
    refine ⟨hiff, ?_, ?_⟩
    · intro hf0 hall
      have := hiff.mp hall
      rw [hf0] at this
      simpa using this
    · intro hf0 hall
      have := hiff.mp hall
      rw [hf0] at this
      simpa using this

/-- C3 witness: the theorem applied to a concrete solver state and
literals. -/
theorem induce_fault_correct_witness :
    ((2 : Lit) ≠ 0) ∧
    ((induceFault ⟨2, []⟩ 2 (-1)).2.clauses =
      [] ++ xorClauses 2 (-1) (induceFault ⟨2, []⟩ 2 (-1)).1) := by
  refine ⟨by decide, ?_⟩
  have h := induce_fault_correct ⟨2, []⟩ 2 (-1) 3 ⟨3, xorClauses 2 (-1) 3⟩
    (by decide) (by decide) (by rfl)
  exact h.2.1

/-- C9: a cell entry of type `$assert` is silently skipped, leaving the
loader state unchanged, while any other type string outside the closed
cell-type enumeration fails with `ILLEGAL_CELL_TYPE`. -/
theorem cell_entry_dispatch (st : LoadSt) (name typeStr : String) (conns : Conns)
    (hne : typeStr ≠ "$assert") (hnone : cellTypeFromString typeStr = none) :
    processCellEntry st name "$assert" conns = .ok st ∧
    processCellEntry st name typeStr conns = .error .ILLEGAL_CELL_TYPE := by
  constructor
  · simp [processCellEntry]
  · simp [processCellEntry, hne, hnone]

/-- C9 witness: the theorem applied to a concrete state and the unknown
type string. -/
theorem cell_entry_dispatch_witness :
    processCellEntry ⟨∅, ∅, ∅, []⟩ "c1" "$assert" {} = .ok ⟨∅, ∅, ∅, []⟩ ∧
    processCellEntry ⟨∅, ∅, ∅, []⟩ "c1" "$bogus" {} = .error .ILLEGAL_CELL_TYPE :=
  cell_entry_dispatch ⟨∅, ∅, ∅, []⟩ "c1" "$bogus" {} (by decide) (by decide)

/-- C2 counterexample: a DFF cell whose `D` input equals its `Q` output
is accepted by the loader without `ILLEGAL_CELL_CYCLE`, although the
output equals one of the cell's inputs. -/
theorem cell_cycle_claim_false :
    (loadCell ⟨∅, ∅, ∅, []⟩ "r" .dff (connsOfPorts (.dff 5 7 7))).isOk = true ∧
    (7 : Sig) ∈ (Ports.dff 5 7 7).inputs ∧ (Ports.dff 5 7 7).output = 7 := by
  refine ⟨by decide, by decide, by decide⟩

/-- C2 (amended): the loader fails with `ILLEGAL_CELL_CYCLE` exactly
when the output equals one of the cycle-checked inputs — all inputs for
unary, binary and multiplexer cells, and the clock, reset and enable
(but not the `D` data input) for register variants; consequently a
successfully loaded cell has no cycle-checked input equal to its
output. -/
theorem cell_cycle_checks (st : LoadSt) (name : String) (p : Ports)
    (hq : p.output ∉ st.signals) :
    (loadCell st name (classOfPorts p) (connsOfPorts p) = .error .ILLEGAL_CELL_CYCLE ↔
      p.output ∈ cycleCheckedInputs p) ∧
    (∀ st', loadCell st name (classOfPorts p) (connsOfPorts p) = .ok st' →
      p.output ∉ cycleCheckedInputs p) := by
  have hmain : loadCell st name (classOfPorts p) (connsOfPorts p) =
      .error .ILLEGAL_CELL_CYCLE ↔ p.output ∈ cycleCheckedInputs p := by
    cases p <;>
      simp only [Ports.output] at hq <;>
      simp only [classOfPorts, connsOfPorts, loadCell, getConn, ok_bind,
        noteMissing_signals, throw_err, pure_ok] <;>
      split_ifs <;>
      simp_all [cycleCheckedInputs, Ports.output, eq_comm]
  refine ⟨hmain, ?_⟩
  intro st' hok hmem
  rw [← hmain] at hmem
  rw [hok] at hmem
  exact absurd hmem (by simp)

theorem mem_foldl_guard_append {α β : Type} (l : List α)
    (step : List β → α → List β) (p : α → Prop) [DecidablePred p] (f : α → β)
    (hstep : ∀ acc a, step acc a = if p a then acc ++ [f a] else acc) (x : β) :
    ∀ init, x ∈ l.foldl step init ↔ x ∈ init ∨ ∃ a ∈ l, p a ∧ f a = x := by
  induction l with
  | nil => simp
  | cons a l ih =>
    intro init
    rw [List.foldl_cons, hstep, ih]
    by_cases ha : p a
    · rw [if_pos ha]
      constructor
      · rintro (h | ⟨a', ha', hpa', hfa'⟩)
        · rcases List.mem_append.mp h with h | h
          · exact Or.inl h
          · exact Or.inr ⟨a, List.mem_cons_self a l, ha,
              (List.mem_singleton.mp h).symm⟩
        · exact Or.inr ⟨a', List.mem_cons_of_mem a ha', hpa', hfa'⟩
      · rintro (h | ⟨a', ha', hpa', hfa'⟩)
        · exact Or.inl (List.mem_append.mpr (Or.inl h))
        · rcases List.mem_cons.mp ha' with rfl | ha'
          · exact Or.inl (List.mem_append.mpr
              (Or.inr (List.mem_singleton.mpr hfa'.symm)))
          · exact Or.inr ⟨a', ha', hpa', hfa'⟩
    · rw [if_neg ha]
      constructor
      · rintro (h | ⟨a', ha', hpa', hfa'⟩)
        · exact Or.inl h
        · exact Or.inr ⟨a', List.mem_cons_of_mem a ha', hpa', hfa'⟩
      · rintro (h | ⟨a', ha', hpa', hfa'⟩)
        · exact Or.inl h
        · rcases List.mem_cons.mp ha' with rfl | ha'
          · exact absurd hpa' ha
          · exact Or.inr ⟨a', ha', hpa', hfa'⟩

/-- C7 counterexample: with two unrolled cycles, a fault selector
allocated at cycle 1 on a signal disconnected from the primary outputs
receives no `¬f0` clause from the Procedure 2 optimizations, refuting
the claim that every such selector of the unrolled traces does. -/
theorem proc2_optim_claim_false :
    ¬ (∀ cycle sig, sig ∈ ([[], [7]] : List (List Sig)).getD cycle [] →
        ((fun _ => (∅ : Finset Sig)) sig ∩ ({5} : Finset Sig)) = ∅ →
        PermClause.notF0 sig ∈
          proc2OptimClauses [] (fun _ => ∅) {5} [[], [7]]) := by
  intro h
  have h7 := h 1 7 (by decide) (by decide)
  have : proc2OptimClauses [] (fun _ => (∅ : Finset Sig)) {5} [[], [7]] = [] := by
    decide
  rw [this] at h7
  exact absurd h7 (by decide)

/-- C7 (amended): the Procedure 2 up-front optimizations add
`¬part_diff_0[P]` exactly for the partitions whose union of `conn_outs`
misses the primary outputs, and `¬f0` exactly for the cycle-0 fault
selectors (not those of later cycles) whose `conn_outs` misses the
primary outputs. -/
theorem proc2_optim_clauses_correct (parts : List (Finset Sig))
    (f : Sig → Finset Sig) (PO : Finset Sig) (cf : List (List Sig)) :
    (∀ idx, PermClause.notPartDiff idx ∈ proc2OptimClauses parts f PO cf ↔
      idx < parts.length ∧ (parts.getD idx ∅).biUnion f ∩ PO = ∅) ∧
    (∀ sig, PermClause.notF0 sig ∈ proc2OptimClauses parts f PO cf ↔
      sig ∈ cf.getD 0 [] ∧ f sig ∩ PO = ∅) := by
  have hpart := fun (x : PermClause) => mem_foldl_guard_append
    (List.range parts.length) _
    (fun idx => (parts.getD idx ∅).biUnion f ∩ PO = ∅)
    (fun idx => PermClause.notPartDiff idx) (fun acc a => rfl) x []
  have hcomb := fun (x : PermClause) => mem_foldl_guard_append
    (cf.getD 0 []) _
    (fun sig => f sig ∩ PO = ∅)
    (fun sig => PermClause.notF0 sig) (fun acc a => rfl) x []
  constructor
  · intro idx
    simp only [proc2OptimClauses, List.mem_append, hpart, hcomb,
      List.not_mem_nil, false_or, List.mem_range]
    constructor
    · rintro (⟨i, hi, hcond, heq⟩ | ⟨s, hs, hcond, heq⟩)
      · cases heq; exact ⟨hi, hcond⟩
      · exact absurd heq (by simp)
    · rintro ⟨hi, hcond⟩
      exact Or.inl ⟨idx, hi, hcond, rfl⟩
  · intro sig
    simp only [proc2OptimClauses, List.mem_append, hpart, hcomb,
      List.not_mem_nil, false_or, List.mem_range]
    constructor
    · rintro (⟨i, hi, hcond, heq⟩ | ⟨s, hs, hcond, heq⟩)
      · exact absurd heq (by simp)
      · cases heq; exact ⟨hs, hcond⟩
    · rintro ⟨hs, hcond⟩
      exact Or.inr ⟨sig, hs, hcond, rfl⟩

/-- C6: while unrolling, a combinational cell output receives a fault
selector at cycle 0 exactly when it is faultable, and at cycles `t > 0`
exactly when it is faultable and its `conn_outs` set contains an alert
signal. -/
theorem unroll_comb_fault_allocation (C : Circ) (fSigs alerts : Finset Sig)
    (connOutsF : Sig → Finset Sig) (c : Cell) (hc : c ∈ C.cells)
    (hreg : c.isReg = false) (hnotin : c.output ∉ C.ins) :
    (c.output ∈ unrollInitFaultSigs C fSigs ↔ c.output ∈ fSigs) ∧
    (c.output ∈ unrollStepFaultSigs C fSigs alerts connOutsF ↔
      c.output ∈ fSigs ∧ ∃ a ∈ connOutsF c.output, a ∈ alerts) := by
  have hins := fun (x : Sig) => mem_foldl_guard_append C.ins _
    (fun sig => sig ∈ fSigs) (fun sig => sig) (fun acc a => rfl) x ([] : List Sig)
  constructor
  · unfold unrollInitFaultSigs
    rw [mem_foldl_guard_append C.cells _
      (fun c' => c'.isReg = false ∧ c'.output ∈ fSigs) (fun c' => c'.output)
      (fun acc c' => by
        by_cases h1 : c'.isReg <;> by_cases h2 : c'.output ∈ fSigs <;>
          simp [h1, h2]) c.output]
    rw [hins]
    constructor
    · rintro ((h | ⟨sig, hsig, hmem, rfl⟩) | ⟨c', hc', ⟨hr', hf'⟩, hout'⟩)
      · exact absurd h (List.not_mem_nil _)
      · exact absurd hsig hnotin
      · exact hout' ▸ hf'
    · intro hf
      exact Or.inr ⟨c, hc, ⟨hreg, hf⟩, rfl⟩
  · unfold unrollStepFaultSigs
    rw [mem_foldl_guard_append C.cells _
      (fun c' => c'.isReg = false ∧ c'.output ∈ fSigs ∧
        (connOutsF c'.output).filter (· ∈ alerts) ≠ ∅) (fun c' => c'.output)
      (fun acc c' => by
        by_cases h1 : c'.isReg <;> by_cases h2 : c'.output ∈ fSigs <;>
          by_cases h3 : (connOutsF c'.output).filter (· ∈ alerts) ≠ ∅ <;>
          simp [h1, h2, h3]) c.output]
    rw [hins]
    have halert : ((connOutsF c.output).filter (· ∈ alerts) ≠ ∅) ↔
        ∃ a ∈ connOutsF c.output, a ∈ alerts := by
      rw [Ne, Finset.filter_eq_empty_iff]
      push_neg
      rfl
    constructor
    · rintro ((h | ⟨sig, hsig, hmem, rfl⟩) | ⟨c', hc', ⟨hr', hf', hal'⟩, hout'⟩)
      · exact absurd h (List.not_mem_nil _)
      · exact absurd hsig hnotin
      · exact ⟨hout' ▸ hf', halert.mp (hout' ▸ hal')⟩
    · rintro ⟨hf, ⟨a, ha, hal⟩⟩
      refine Or.inr ⟨c, hc, ⟨hreg, hf, halert.mpr ⟨a, ha, hal⟩⟩, rfl⟩

/-- C6 witness: the theorem applied to a one-gate circuit whose output
feeds an alert. -/
theorem unroll_comb_fault_allocation_witness :
    (⟨"g", .unary 4 5⟩ : Cell) ∈ (⟨[4], {5}, [⟨"g", .unary 4 5⟩]⟩ : Circ).cells ∧
    ((5 : Sig) ∈ unrollInitFaultSigs ⟨[4], {5}, [⟨"g", .unary 4 5⟩]⟩ {5} ↔
      (5 : Sig) ∈ ({5} : Finset Sig)) := by
  refine ⟨by decide, ?_⟩
  exact (unroll_comb_fault_allocation ⟨[4], {5}, [⟨"g", .unary 4 5⟩]⟩ {5} {5}
    (fun s => if s = 5 then {5} else ∅) ⟨"g", .unary 4 5⟩
    (by decide) (by decide) (by decide)).1

theorem bitNameInsert_eval (m : Sig → Option VerilogId) (sig : Sig)
    (vid : VerilogId) (t : Sig) :
    bitNameInsert m sig vid t =
      if t = sig then (m sig).or (some vid) else m t := by
  unfold bitNameInsert
  by_cases ht : t = sig
  · rw [if_pos ht, if_pos ht]
    cases m sig <;> rfl
  · rw [if_neg ht, if_neg ht]

theorem foldl_insert_head (name : String) (sig : Sig) :
    ∀ (l : List (Nat × Sig)) (m : Sig → Option VerilogId),
      (l.foldl (fun m p => bitNameInsert m p.2 ⟨name, p.1⟩) m) sig =
      (m sig).or
        ((l.filterMap
          (fun p => if p.2 = sig then some ⟨name, p.1⟩ else none)).head?) := by
  intro l
  induction l with
  | nil => intro m; simp
  | cons p l ih =>
    intro m
    rw [List.foldl_cons, ih]
    by_cases hp : p.2 = sig
    · subst hp
      have hfm : List.filterMap
          (fun q => if q.2 = p.2 then some (⟨name, q.1⟩ : VerilogId) else none)
          (p :: l) = ⟨name, p.1⟩ :: List.filterMap
          (fun q => if q.2 = p.2 then some (⟨name, q.1⟩ : VerilogId) else none)
          l := by
        simp [List.filterMap_cons]
      rw [hfm, List.head?_cons, bitNameInsert_eval, if_pos rfl,
        Option.or_assoc]
      rfl
    · have hfm : List.filterMap
          (fun q => if q.2 = sig then some (⟨name, q.1⟩ : VerilogId) else none)
          (p :: l) = List.filterMap
          (fun q => if q.2 = sig then some (⟨name, q.1⟩ : VerilogId) else none)
          l := by
        simp [List.filterMap_cons, hp]
      rw [hfm, bitNameInsert_eval, if_neg (fun hc => hp hc.symm)]

theorem bitNameMap_head (sig : Sig) :
    ∀ (decls : List (String × List Sig)) (m : Sig → Option VerilogId),
      (decls.foldl (fun m d => addBitNames m d.1 d.2) m) sig =
      (m sig).or ((occsOf decls sig).head?) := by
  intro decls
  induction decls with
  | nil => intro m; simp [occsOf]
  | cons d decls ih =>
    intro m
    rw [List.foldl_cons, ih, occsOf, List.head?_append,
      addBitNames, foldl_insert_head, Option.or_assoc]

/-- C8: the claim is false of the program.  `Circuit::add_bit_names`
stores the label of a signal's first-encountered occurrence, and its
`else if (vid < found->second)` branch calls `emplace_hint` on an
`unordered_map` key that is already present, which inserts nothing: the
stored label is never replaced, so it is the head of the occurrence
list rather than the minimum of the preference order.  On a bit
declared under the synthesized name `_syn1` before the name `top`, the
program keeps `_syn1[0]` although `top[0]` is strictly preferred by
`operator<` and is the label the specified minimality would store. -/
theorem bit_label_first_encountered :
    (∀ (decls : List (String × List Sig)) (sig : Sig),
      bitNameMap decls sig = (occsOf decls sig).head?) ∧
    (occsOf [("_syn1", [5]), ("top", [5])] 5 =
        [⟨"_syn1", 0⟩, ⟨"top", 0⟩] ∧
     bitNameMap [("_syn1", [5]), ("top", [5])] 5 = some ⟨"_syn1", 0⟩ ∧
     vidLt ⟨"top", 0⟩ ⟨"_syn1", 0⟩ = true ∧
     specBitLabel ⟨"_syn1", 0⟩ [⟨"top", 0⟩] = ⟨"top", 0⟩) := by
  refine ⟨fun decls sig => ?_, by decide, by decide, by decide, by decide⟩
  rw [bitNameMap, bitNameMap_head]
  exact Option.none_or

theorem foldl_preserve {α β : Type} (f : β → α → β) (P : β → Prop)
    (l : List α) (hstep : ∀ b a, P b → P (f b a)) :
    ∀ b, P b → P (l.foldl f b) := by
  induction l with
  | nil => intro b hb; exact hb
  | cons a l ih => intro b hb; exact ih (f b a) (hstep b a hb)

theorem topoInv_append (cells : List Cell) (ins : Finset Sig)
    (st : Finset Sig × List Cell) (c : Cell) (hInv : topoInv cells ins st)
    (hreg : c.isReg = false) (hin : ∀ s ∈ c.inputs, s ∈ st.1) :
    topoInv cells ins (insert c.output st.1, st.2 ++ [c]) := by
  obtain ⟨h1, ⟨rest, hrest, hcomb⟩, h3⟩ := hInv
  refine ⟨?_, ⟨rest ++ [c], by rw [hrest, List.append_assoc], ?_⟩, ?_⟩
  · rw [h1, List.map_append, List.toFinset_append, Finset.insert_eq]
    simp only [List.map_cons, List.map_nil, List.toFinset_cons,
      List.toFinset_nil]
    ext t
    simp only [Finset.mem_union, Finset.mem_insert, Finset.mem_singleton,
      Finset.not_mem_empty, or_false]
    tauto
  · intro c' hc'
    rcases List.mem_append.mp hc' with h | h
    · exact hcomb c' h
    · rw [List.mem_singleton.mp h]; exact hreg
  · intro i hi hregi s hs
    rw [List.length_append, List.length_singleton] at hi
    by_cases hilt : i < st.2.length
    · have hget : (st.2 ++ [c]).getD i dummyCell = st.2.getD i dummyCell := by
        rw [List.getD_eq_getElem _ _ (by simp; omega), List.getD_eq_getElem _ _
          hilt]
        exact List.getElem_append_left hilt
      rw [hget] at hregi hs
      have hmem := h3 i hilt hregi s hs
      have htake : (st.2 ++ [c]).take i = st.2.take i :=
        List.take_append_of_le_length (le_of_lt hilt)
      rw [htake]
      exact hmem
    · have hieq : i = st.2.length := by omega
      subst hieq
      have hget : (st.2 ++ [c]).getD st.2.length dummyCell = c := by
        rw [List.getD_eq_getElem _ _ (by simp)]
        exact List.getElem_concat_length st.2 c _ rfl _
      rw [hget] at hregi hs
      have htake : (st.2 ++ [c]).take st.2.length = st.2 := by
        rw [List.take_append_of_le_length (le_refl _)]
        exact List.take_length st.2
      rw [htake, ← h1]
      exact hin s hs

theorem topoPass_inv (cells : List Cell) (ins : Finset Sig)
    (st : Finset Sig × List Cell) (h : topoInv cells ins st) :
    topoInv cells ins (topoPass cells st) := by
  unfold topoPass
  refine foldl_preserve _ (topoInv cells ins) cells ?_ st h
  intro st c hInv
  by_cases hc : st.2.contains c = true
  · rw [if_pos hc]; exact hInv
  · rw [if_neg hc]
    rcases hp : c.ports with ⟨a, y⟩ | ⟨a, b, y⟩ | ⟨a, b, se, y⟩ |
      ⟨cc, d, q⟩ | ⟨cc, d, q, r⟩ | ⟨cc, d, q, e⟩ | ⟨cc, d, q, r, e⟩ <;>
      simp only [hp]
    · by_cases ha : a ∈ st.1
      · rw [if_pos ha]
        have hy : c.output = y := by simp [Cell.output, hp, Ports.output]
        rw [← hy]
        refine topoInv_append cells ins st c hInv ?_ ?_
        · rw [Cell.isReg, hp]; rfl
        · intro s hs
          rw [Cell.inputs, hp] at hs
          simp only [Ports.inputs, List.mem_singleton] at hs
          rw [hs]; exact ha
      · rw [if_neg ha]; exact hInv
    · by_cases hab : a ∈ st.1 ∧ b ∈ st.1
      · rw [if_pos hab]
        have hy : c.output = y := by simp [Cell.output, hp, Ports.output]
        rw [← hy]
        refine topoInv_append cells ins st c hInv ?_ ?_
        · rw [Cell.isReg, hp]; rfl
        · intro s hs
          rw [Cell.inputs, hp] at hs
          simp only [Ports.inputs, List.mem_cons, List.mem_singleton,
            List.not_mem_nil, or_false] at hs
          rcases hs with rfl | rfl
          · exact hab.1
          · exact hab.2
      · rw [if_neg hab]; exact hInv
    · by_cases habs : a ∈ st.1 ∧ b ∈ st.1 ∧ se ∈ st.1
      · rw [if_pos habs]
        have hy : c.output = y := by simp [Cell.output, hp, Ports.output]
        rw [← hy]
        refine topoInv_append cells ins st c hInv ?_ ?_
        · rw [Cell.isReg, hp]; rfl
        · intro s hs
          rw [Cell.inputs, hp] at hs
          simp only [Ports.inputs, List.mem_cons, List.mem_singleton,
            List.not_mem_nil, or_false] at hs
          rcases hs with rfl | rfl | rfl
          · exact habs.1
          · exact habs.2.1
          · exact habs.2.2
      · rw [if_neg habs]; exact hInv
    · exact hInv
    · exact hInv
    · exact hInv
    · exact hInv

theorem topoInit_inv (cells : List Cell) (ins : Finset Sig) :
    topoInv cells ins (topoInit cells ins) := by
  refine ⟨rfl, ⟨[], by simp [topoInit], by simp⟩, ?_⟩
  intro i hi hregi s hs
  exfalso
  have h2 : (topoInit cells ins).2 = cells.filter (·.isReg) := rfl
  rw [h2] at hi hregi
  have hmem : (cells.filter (·.isReg)).getD i dummyCell ∈
      cells.filter (·.isReg) := by
    rw [List.getD_eq_getElem _ _ hi]
    exact List.getElem_mem hi
  have hr := (List.mem_filter.mp hmem).2
  rw [hregi] at hr
  exact absurd hr (by simp)

theorem topoIter_inv (cells : List Cell) (ins : Finset Sig) :
    ∀ (n : Nat) (st : Finset Sig × List Cell), topoInv cells ins st →
      topoInv cells ins (topoIter cells n st) := by
  intro n
  induction n with
  | zero => intro st h; exact h
  | succ n ih =>
    intro st h
    exact ih (topoPass cells st) (topoPass_inv cells ins st h)

/-- C5: after the loader's topological linearization, all register cells
appear before all combinational cells, and every combinational cell at
index `i` reads only constants, input ports, register outputs, or
outputs of cells at indices strictly below `i`. -/
theorem topo_linearization_correct (cells : List Cell) (ins : Finset Sig)
    (n : Nat) (i j : Nat)
    (hj : j < ((topoIter cells n (topoInit cells ins)).2).length)
    (hij : i ≤ j) :
    (((topoIter cells n (topoInit cells ins)).2.getD j dummyCell).isReg = true →
      ((topoIter cells n (topoInit cells ins)).2.getD i dummyCell).isReg
        = true) ∧
    (((topoIter cells n (topoInit cells ins)).2.getD i dummyCell).isReg
        = false →
      ∀ s ∈ ((topoIter cells n (topoInit cells ins)).2.getD i
          dummyCell).inputs,
        s ∈ constSigs ∨ s ∈ ins ∨ s ∈ regOutsOf cells ∨
          ∃ k, k < i ∧
            ((topoIter cells n (topoInit cells ins)).2.getD k
              dummyCell).output = s) := by
  obtain ⟨h1, ⟨rest, hrest, hcomb⟩, h3⟩ :=
    topoIter_inv cells ins n _ (topoInit_inv cells ins)
  have hi : i < ((topoIter cells n (topoInit cells ins)).2).length :=
    lt_of_le_of_lt hij hj
  constructor
  · intro hregj
    have hjlt : j < (cells.filter (·.isReg)).length := by
      by_contra hge
      push_neg at hge
      have hjr : (topoIter cells n (topoInit cells ins)).2.getD j dummyCell
          ∈ rest := by
        rw [List.getD_eq_getElem _ _ hj, List.getElem_of_eq hrest hj,
          List.getElem_append_right hge]
        exact List.getElem_mem _
      have hcontra := hcomb _ hjr
      rw [hregj] at hcontra
      exact absurd hcontra (by simp)
    have hilt : i < (cells.filter (·.isReg)).length := lt_of_le_of_lt hij hjlt
    have hmem : (topoIter cells n (topoInit cells ins)).2.getD i dummyCell
        ∈ cells.filter (·.isReg) := by
      rw [List.getD_eq_getElem _ _ hi, List.getElem_of_eq hrest hi,
        List.getElem_append_left hilt]
      exact List.getElem_mem hilt
    exact (List.mem_filter.mp hmem).2
  · intro hregi s hs
    have hsmem := h3 i hi hregi s hs
    rcases Finset.mem_union.mp hsmem with h | h
    · rcases Finset.mem_union.mp h with h | h
      · exact Or.inr (Or.inl h)
      · exact Or.inl h
    · rw [List.mem_toFinset, List.mem_map] at h
      obtain ⟨c, hc, hout⟩ := h
      obtain ⟨k, hk, hgetc⟩ := List.getElem_of_mem hc
      have hklen : k < i := by
        rw [List.length_take] at hk
        omega
      refine Or.inr (Or.inr (Or.inr ⟨k, hklen, ?_⟩))
      rw [List.getD_eq_getElem _ _ (by omega)]
      rw [← hout]
      congr 1
      rw [← hgetc]
      exact (List.getElem_take _).symm

/-- C5 witness: the theorem applied to a one-register, one-gate
circuit. -/
theorem topo_linearization_correct_witness :
    (1 : Nat) ≤ 1 ∧
    (((topoIter [⟨"g", .unary 4 5⟩, ⟨"r", .dff 6 5 7⟩] 1
        (topoInit [⟨"g", .unary 4 5⟩, ⟨"r", .dff 6 5 7⟩] {4, 6})).2.getD 1
        dummyCell).isReg = false →
      ∀ s ∈ ((topoIter [⟨"g", .unary 4 5⟩, ⟨"r", .dff 6 5 7⟩] 1
          (topoInit [⟨"g", .unary 4 5⟩, ⟨"r", .dff 6 5 7⟩] {4, 6})).2.getD 1
          dummyCell).inputs,
        s ∈ constSigs ∨ s ∈ ({4, 6} : Finset Sig) ∨
          s ∈ regOutsOf [⟨"g", .unary 4 5⟩, ⟨"r", .dff 6 5 7⟩] ∨
          ∃ k, k < 1 ∧
            ((topoIter [⟨"g", .unary 4 5⟩, ⟨"r", .dff 6 5 7⟩] 1
              (topoInit [⟨"g", .unary 4 5⟩, ⟨"r", .dff 6 5 7⟩]
                {4, 6})).2.getD k dummyCell).output = s) := by
  refine ⟨le_refl 1, ?_⟩
  exact (topo_linearization_correct [⟨"g", .unary 4 5⟩, ⟨"r", .dff 6 5 7⟩]
    {4, 6} 1 1 1 (by decide) (le_refl 1)).2

theorem mem_foldl_union {α β : Type} [DecidableEq α] (g : β → Finset α)
    (l : List β) : ∀ (init : Finset α) (x : α),
      x ∈ l.foldl (fun acc b => acc ∪ g b) init ↔
        x ∈ init ∨ ∃ b ∈ l, x ∈ g b := by
  induction l with
  | nil => intro init x; simp
  | cons b l ih =>
    intro init x
    rw [List.foldl_cons, ih]
    simp only [Finset.mem_union, List.mem_cons, exists_eq_or_imp]
    tauto

theorem mem_combSuccs (cells : List Cell) (s : Sig) (c : Cell) :
    c ∈ combSuccs cells s ↔ c ∈ cells ∧ c.isReg = false ∧ s ∈ c.inputs := by
  simp [combSuccs, List.mem_filter, Bool.and_eq_true, Bool.not_eq_true']

theorem mem_regSuccs (cells : List Cell) (s : Sig) (c : Cell) :
    c ∈ regSuccs cells s ↔ c ∈ cells ∧ c.isReg = true ∧ s ∈ c.inputs := by
  simp [regSuccs, List.mem_filter, Bool.and_eq_true]

theorem combReach_iff (cells : List Cell) (s t : Sig) :
    CombReach cells s t ↔
      t = s ∨ ∃ c ∈ combSuccs cells s, CombReach cells c.output t := by
  constructor
  · intro h
    cases h with
    | refl => exact Or.inl rfl
    | step c hc hreg hin hr =>
      exact Or.inr ⟨c, (mem_combSuccs cells s c).mpr ⟨hc, hreg, hin⟩, hr⟩
  · rintro (rfl | ⟨c, hc, hr⟩)
    · exact CombReach.refl t
    · obtain ⟨h1, h2, h3⟩ := (mem_combSuccs cells s c).mp hc
      exact CombReach.step c h1 h2 h3 hr

theorem topoOk_cons (cells : List Cell) (s : Sig) (rest : List Sig)
    (h : topoOk cells (s :: rest) = true) :
    (∀ c ∈ cells, c.isReg = false → s ∈ c.inputs → c.output ∈ rest) ∧
      topoOk cells rest = true := by
  rw [topoOk, Bool.and_eq_true] at h
  obtain ⟨hall, hrest⟩ := h
  refine ⟨?_, hrest⟩
  intro c hc hreg hin
  have hcond := List.all_eq_true.mp hall c hc
  have hbc : (!c.isReg && c.inputs.contains s) = true := by
    simp [hreg, hin]
  rw [if_pos hbc] at hcond
  simpa using hcond

theorem connOutsGo_correct (cells : List Cell) (outs : Finset Sig) :
    ∀ (l : List Sig), topoOk cells l = true → ∀ s ∈ l, ∀ t,
      t ∈ connOutsGo cells outs l s ↔ t ∈ outs ∧ CombReach cells s t := by
  intro l
  induction l with
  | nil => intro _ s hs; exact absurd hs (List.not_mem_nil s)
  | cons s' rest ih =>
    intro htopo s hs t
    obtain ⟨hsucc, hrest⟩ := topoOk_cons cells s' rest htopo
    simp only [connOutsGo]
    by_cases hss : s = s'
    · rw [if_pos hss]
      rw [Finset.mem_union,
        mem_foldl_union (fun c => connOutsGo cells outs rest c.output)
          (combSuccs cells s') ∅ t]
      constructor
      · rintro (hseed | (hemp | ⟨c, hc, hmemc⟩))
        · by_cases ho : s' ∈ outs
          · rw [if_pos ho, Finset.mem_singleton] at hseed
            refine ⟨hseed ▸ ho, ?_⟩
            rw [hss, hseed]
            exact CombReach.refl s'
          · rw [if_neg ho] at hseed
            exact absurd hseed (Finset.not_mem_empty t)
        · exact absurd hemp (Finset.not_mem_empty t)
        · obtain ⟨hcc, hcreg, hcin⟩ := (mem_combSuccs cells s' c).mp hc
          have hco : c.output ∈ rest := hsucc c hcc hcreg hcin
          have hres := (ih hrest c.output hco t).mp hmemc
          refine ⟨hres.1, ?_⟩
          rw [hss]
          exact CombReach.step c hcc hcreg hcin hres.2
      · rintro ⟨hto, hreach⟩
        rw [hss] at hreach
        rcases (combReach_iff cells s' t).mp hreach with h | ⟨c, hc, hr⟩
        · left
          rw [if_pos (h ▸ hto), Finset.mem_singleton]
          exact h
        · right; right
          obtain ⟨hcc, hcreg, hcin⟩ := (mem_combSuccs cells s' c).mp hc
          have hco : c.output ∈ rest := hsucc c hcc hcreg hcin
          exact ⟨c, hc, (ih hrest c.output hco t).mpr ⟨hto, hr⟩⟩
    · rw [if_neg hss]
      have hs' : s ∈ rest := by
        rcases List.mem_cons.mp hs with h | h
        · exact absurd h hss
        · exact h
      exact ih hrest s hs' t

theorem regReach_unfold (cells : List Cell) (s q : Sig) :
    (∃ rc ∈ cells, rc.isReg = true ∧ rc.output = q ∧
        ∃ x ∈ rc.inputs, CombReach cells s x) ↔
      (∃ rc ∈ regSuccs cells s, rc.output = q) ∨
        ∃ c ∈ combSuccs cells s, ∃ rc ∈ cells, rc.isReg = true ∧
          rc.output = q ∧ ∃ x ∈ rc.inputs, CombReach cells c.output x := by
  constructor
  · rintro ⟨rc, hrc, hreg, hout, x, hx, hreach⟩
    rcases (combReach_iff cells s x).mp hreach with h | ⟨c, hc, hr⟩
    · left
      exact ⟨rc, (mem_regSuccs cells s rc).mpr ⟨hrc, hreg, h ▸ hx⟩, hout⟩
    · right
      exact ⟨c, hc, rc, hrc, hreg, hout, x, hx, hr⟩
  · rintro (⟨rc, hrc, hout⟩ | ⟨c, hc, rc, hrc, hreg, hout, x, hx, hr⟩)
    · obtain ⟨hcc, hcreg, hcin⟩ := (mem_regSuccs cells s rc).mp hrc
      exact ⟨rc, hcc, hcreg, hout, s, hcin, CombReach.refl s⟩
    · obtain ⟨h1, h2, h3⟩ := (mem_combSuccs cells s c).mp hc
      exact ⟨rc, hrc, hreg, hout, x, hx, CombReach.step c h1 h2 h3 hr⟩

theorem connRegsGo_correct (cells : List Cell) :
    ∀ (l : List Sig), topoOk cells l = true → ∀ s ∈ l, ∀ q,
      q ∈ connRegsGo cells l s ↔
        ∃ rc ∈ cells, rc.isReg = true ∧ rc.output = q ∧
          ∃ x ∈ rc.inputs, CombReach cells s x := by
  intro l
  induction l with
  | nil => intro _ s hs; exact absurd hs (List.not_mem_nil s)
  | cons s' rest ih =>
    intro htopo s hs q
    obtain ⟨hsucc, hrest⟩ := topoOk_cons cells s' rest htopo
    simp only [connRegsGo]
    by_cases hss : s = s'
    · rw [if_pos hss, hss]
      rw [Finset.mem_union,
        mem_foldl_union (fun c => connRegsGo cells rest c.output)
          (combSuccs cells s') ∅ q]
      rw [regReach_unfold cells s' q]
      constructor
      · rintro (hseed | (hemp | ⟨c, hc, hmemc⟩))
        · left
          rw [List.mem_toFinset, List.mem_map] at hseed
          obtain ⟨rc, hrc, hout⟩ := hseed
          exact ⟨rc, hrc, hout⟩
        · exact absurd hemp (Finset.not_mem_empty q)
        · right
          obtain ⟨hcc, hcreg, hcin⟩ := (mem_combSuccs cells s' c).mp hc
          have hco : c.output ∈ rest := hsucc c hcc hcreg hcin
          obtain ⟨rc, hrc, hreg, hout, x, hx, hr⟩ :=
            (ih hrest c.output hco q).mp hmemc
          exact ⟨c, hc, rc, hrc, hreg, hout, x, hx, hr⟩
      · rintro (⟨rc, hrc, hout⟩ | ⟨c, hc, rc, hrc, hreg, hout, x, hx, hr⟩)
        · left
          rw [List.mem_toFinset, List.mem_map]
          exact ⟨rc, hrc, hout⟩
        · right; right
          obtain ⟨hcc, hcreg, hcin⟩ := (mem_combSuccs cells s' c).mp hc
          have hco : c.output ∈ rest := hsucc c hcc hcreg hcin
          exact ⟨c, hc, (ih hrest c.output hco q).mpr
            ⟨rc, hrc, hreg, hout, x, hx, hr⟩⟩
    · rw [if_neg hss]
      have hs' : s ∈ rest := by
        rcases List.mem_cons.mp hs with h | h
        · exact absurd h hss
        · exact h
      exact ih hrest s hs' q

/-- C4: after `build_adjacent_lists`, `conn_outs(s)` is exactly the set
of primary-output signals reachable from `s` by forward combinational
traversal (stopping at register boundaries), and `conn_regs(s)` is
exactly the set of register Q outputs whose register has an input
reachable from `s` through combinational cells only. -/
theorem conn_adjacency_correct (C : Circ)
    (htopo : topoOk C.cells (sigOrder C) = true) (s : Sig)
    (hs : s ∈ sigOrder C) :
    (∀ t, t ∈ connOuts C s ↔ t ∈ C.outPorts ∧ CombReach C.cells s t) ∧
    (∀ q, q ∈ connRegs C s ↔
      ∃ rc ∈ C.cells, rc.isReg = true ∧ rc.output = q ∧
        ∃ x ∈ rc.inputs, CombReach C.cells s x) :=
  ⟨fun t => connOutsGo_correct C.cells C.outPorts (sigOrder C) htopo s hs t,
   fun q => connRegsGo_correct C.cells (sigOrder C) htopo s hs q⟩

/-- C4 witness: the theorem applied to a one-gate circuit at its input
signal. -/
theorem conn_adjacency_correct_witness :
    topoOk (⟨[4], {5}, [⟨"n", .unary 4 5⟩]⟩ : Circ).cells
      (sigOrder ⟨[4], {5}, [⟨"n", .unary 4 5⟩]⟩) = true ∧
    ((5 : Sig) ∈ connOuts ⟨[4], {5}, [⟨"n", .unary 4 5⟩]⟩ 4 ↔
      (5 : Sig) ∈ (⟨[4], {5}, [⟨"n", .unary 4 5⟩]⟩ : Circ).outPorts ∧
        CombReach (⟨[4], {5}, [⟨"n", .unary 4 5⟩]⟩ : Circ).cells 4 5) := by
  refine ⟨by decide, ?_⟩
  exact (conn_adjacency_correct ⟨[4], {5}, [⟨"n", .unary 4 5⟩]⟩ (by decide) 4
    (by decide)).1 5

theorem mem_foldr_union (ps : List (Finset Sig)) (x : Sig) :
    x ∈ ps.foldr (· ∪ ·) ∅ ↔ ∃ p ∈ ps, x ∈ p := by
  induction ps with
  | nil => simp
  | cons p ps ih =>
    simp only [List.foldr_cons, Finset.mem_union, ih, List.mem_cons,
      exists_eq_or_imp]

theorem mem_foldr_union_getD (ps : List (Finset Sig)) (x : Sig) :
    x ∈ ps.foldr (· ∪ ·) ∅ ↔ ∃ k, k < ps.length ∧ x ∈ ps.getD k ∅ := by
  rw [mem_foldr_union]
  constructor
  · rintro ⟨p, hp, hx⟩
    obtain ⟨k, hk, hget⟩ := List.getElem_of_mem hp
    refine ⟨k, hk, ?_⟩
    rw [List.getD_eq_getElem ps ∅ hk, hget]
    exact hx
  · rintro ⟨k, hk, hx⟩
    refine ⟨ps.getD k ∅, ?_, hx⟩
    rw [List.getD_eq_getElem ps ∅ hk]
    exact List.getElem_mem hk

theorem mem_bucketUnion (ps : List (Finset Sig)) (b : List Nat) (x : Sig) :
    x ∈ bucketUnion ps b ↔ ∃ i ∈ b, x ∈ ps.getD i ∅ := by
  unfold bucketUnion
  rw [mem_foldl_union (fun i => ps.getD i ∅) b ∅ x]
  simp

theorem removeIdxsGo_sublist (rem : List Nat) :
    ∀ (ps : List (Finset Sig)) (i : Nat),
      List.Sublist (removeIdxsGo rem i ps) ps := by
  intro ps
  induction ps with
  | nil => intro i; simp [removeIdxsGo]
  | cons p ps ih =>
    intro i
    simp only [removeIdxsGo]
    by_cases h : rem.contains i = true
    · rw [if_pos h]; exact (ih (i + 1)).cons p
    · rw [if_neg h]; exact (ih (i + 1)).cons₂ p

theorem mem_removeIdxsGo (rem : List Nat) :
    ∀ (ps : List (Finset Sig)) (i : Nat) (x : Finset Sig),
      x ∈ removeIdxsGo rem i ps ↔
        ∃ k, k < ps.length ∧ ps.getD k ∅ = x ∧ (i + k) ∉ rem := by
  intro ps
  induction ps with
  | nil => intro i x; simp [removeIdxsGo]
  | cons p ps ih =>
    intro i x
    simp only [removeIdxsGo]
    by_cases h : rem.contains i = true
    · rw [if_pos h, ih]
      constructor
      · rintro ⟨k, hk, hget, hmem⟩
        refine ⟨k + 1, by simp [hk], ?_, ?_⟩
        · rw [List.getD_cons_succ]; exact hget
        · have heq : i + 1 + k = i + (k + 1) := by omega
          rw [heq] at hmem; exact hmem
      · rintro ⟨k, hk, hget, hmem⟩
        cases k with
        | zero =>
          exact absurd (by simpa using h) (by simpa using hmem)
        | succ k =>
          refine ⟨k, by simpa using hk, ?_, ?_⟩
          · rw [List.getD_cons_succ] at hget; exact hget
          · have heq : i + (k + 1) = i + 1 + k := by omega
            rw [heq] at hmem; exact hmem
    · rw [if_neg h]
      constructor
      · intro hx
        rcases List.mem_cons.mp hx with hxp | hx
        · refine ⟨0, by simp, by simp [hxp.symm], by simpa using h⟩
        · obtain ⟨k, hk, hget, hmem⟩ := (ih (i + 1) x).mp hx
          refine ⟨k + 1, by simp [hk], by simpa [List.getD_cons_succ] using hget,
            ?_⟩
          have heq : i + (k + 1) = i + 1 + k := by omega
          rw [heq]; exact hmem
      · rintro ⟨k, hk, hget, hmem⟩
        cases k with
        | zero =>
          rw [List.getD_cons_zero] at hget
          exact List.mem_cons.mpr (Or.inl hget.symm)
        | succ k =>
          refine List.mem_cons.mpr (Or.inr ((ih (i + 1) x).mpr
            ⟨k, by simpa using hk, ?_, ?_⟩))
          · rw [List.getD_cons_succ] at hget; exact hget
          · have heq : i + 1 + k = i + (k + 1) := by omega
            rw [heq]; exact hmem

theorem getD_disjoint (ps : List (Finset Sig))
    (hpair : ps.Pairwise (fun p q => Disjoint p q)) {i j : Nat} (hij : i ≠ j) :
    Disjoint (ps.getD i ∅) (ps.getD j ∅) := by
  by_cases hi : i < ps.length
  · by_cases hj : j < ps.length
    · rw [List.getD_eq_getElem ps ∅ hi, List.getD_eq_getElem ps ∅ hj]
      rcases Nat.lt_or_ge i j with hlt | hge
      · exact List.pairwise_iff_getElem.mp hpair i j hi hj hlt
      · have hji : j < i := by omega
        exact (List.pairwise_iff_getElem.mp hpair j i hj hi hji).symm
    · have hj' : ps.length ≤ j := by omega
      rw [List.getD_eq_default ps ∅ hj']
      exact Finset.disjoint_empty_right _
  · have hi' : ps.length ≤ i := by omega
    rw [List.getD_eq_default ps ∅ hi']
    exact Finset.disjoint_empty_left _

theorem foldr_union_singletons (regs : List Sig) :
    (regs.map (fun r => ({r} : Finset Sig))).foldr (· ∪ ·) ∅ = regs.toFinset := by
  induction regs with
  | nil => simp
  | cons r regs ih => simp [ih, Finset.insert_eq]

/-- C1: starting from the scratch-built partitioning (one singleton per
register output), the partitioning is valid (non-empty, pairwise
disjoint partitions whose union is the register-output set), and every
merge step of the refinement loop — which only unions the bucketed
partitions into new appended partitions and removes the merged-away
ones, never splitting any — preserves validity. -/
theorem partition_refinement_invariant (regs : List Sig) (hnd : regs.Nodup)
    (R : Finset Sig) (ps : List (Finset Sig)) (buckets : List (List Nat))
    (hb : ∀ b ∈ buckets, b ≠ [])
    (hflat : buckets.flatten.Nodup)
    (hlt : ∀ i ∈ buckets.flatten, i < ps.length)
    (hval : validPartitioning R ps) :
    validPartitioning regs.toFinset (initPartitionsFromScratch regs) ∧
    validPartitioning R (mergeStep ps buckets) := by
  obtain ⟨hne, hpair, hun⟩ := hval
  constructor
  · refine ⟨?_, ?_, ?_⟩
    · intro p hp
      simp only [initPartitionsFromScratch, List.mem_map] at hp
      obtain ⟨r, _, rfl⟩ := hp
      exact Finset.singleton_nonempty r
    · rw [initPartitionsFromScratch, List.pairwise_map]
      exact hnd.imp (fun h => Finset.disjoint_singleton.mpr h)
    · exact foldr_union_singletons regs
  · refine ⟨?_, ?_, ?_⟩
    · intro p hp
      rw [mergeStep] at hp
      rcases List.mem_append.mp hp with hp | hp
      · exact hne p ((removeIdxsGo_sublist buckets.flatten ps 0).subset hp)
      · obtain ⟨b, hbmem, rfl⟩ := List.mem_map.mp hp
        obtain ⟨i, hib⟩ := List.exists_mem_of_ne_nil b (hb b hbmem)
        have hi : i < ps.length := hlt i (List.mem_flatten.mpr ⟨b, hbmem, hib⟩)
        have hpsne : (ps.getD i ∅).Nonempty := by
          apply hne
          rw [List.getD_eq_getElem ps ∅ hi]
          exact List.getElem_mem hi
        obtain ⟨x, hx⟩ := hpsne
        exact ⟨x, (mem_bucketUnion ps b x).mpr ⟨i, hib, hx⟩⟩
    · rw [mergeStep, List.pairwise_append]
      refine ⟨hpair.sublist (removeIdxsGo_sublist buckets.flatten ps 0), ?_, ?_⟩
      · rw [List.pairwise_map]
        have hbpair : buckets.Pairwise List.Disjoint :=
          (List.nodup_flatten.mp hflat).2
        refine hbpair.imp ?_
        intro b₁ b₂ hdisj
        rw [Finset.disjoint_left]
        intro x hx1 hx2
        obtain ⟨i1, hi1, hxi1⟩ := (mem_bucketUnion ps b₁ x).mp hx1
        obtain ⟨i2, hi2, hxi2⟩ := (mem_bucketUnion ps b₂ x).mp hx2
        have hne12 : i1 ≠ i2 := fun h => hdisj hi1 (h ▸ hi2)
        exact Finset.disjoint_left.mp (getD_disjoint ps hpair hne12) hxi1 hxi2
      · intro p hp m hm
        obtain ⟨k, hk, hgetk, hknotin⟩ :=
          (mem_removeIdxsGo buckets.flatten ps 0 p).mp hp
        obtain ⟨b, hbmem, rfl⟩ := List.mem_map.mp hm
        rw [Finset.disjoint_left]
        intro x hxp hxm
        obtain ⟨i, hib, hxi⟩ := (mem_bucketUnion ps b x).mp hxm
        have hik : i ≠ k := by
          intro hcontra
          apply hknotin
          rw [Nat.zero_add]
          exact hcontra ▸ List.mem_flatten.mpr ⟨b, hbmem, hib⟩
        exact Finset.disjoint_left.mp (getD_disjoint ps hpair hik) hxi
          (hgetk ▸ hxp)
    · apply Finset.ext
      intro x
      rw [mem_foldr_union, ← hun, mem_foldr_union_getD]
      constructor
      · rintro ⟨p, hp, hx⟩
        rw [mergeStep] at hp
        rcases List.mem_append.mp hp with hp' | hp'
        · obtain ⟨k, hk, hget, _⟩ :=
            (mem_removeIdxsGo buckets.flatten ps 0 p).mp hp'
          exact ⟨k, hk, hget ▸ hx⟩
        · obtain ⟨b, hbm, rfl⟩ := List.mem_map.mp hp'
          obtain ⟨i, hib, hxi⟩ := (mem_bucketUnion ps b x).mp hx
          exact ⟨i, hlt i (List.mem_flatten.mpr ⟨b, hbm, hib⟩), hxi⟩
      · rintro ⟨k, hk, hx⟩
        by_cases hkrem : k ∈ buckets.flatten
        · obtain ⟨b, hbm, hkb⟩ := List.mem_flatten.mp hkrem
          refine ⟨bucketUnion ps b, ?_,
            (mem_bucketUnion ps b x).mpr ⟨k, hkb, hx⟩⟩
          rw [mergeStep]
          exact List.mem_append.mpr (Or.inr (List.mem_map.mpr ⟨b, hbm, rfl⟩))
        · refine ⟨ps.getD k ∅, ?_, hx⟩
          rw [mergeStep]
          refine List.mem_append.mpr (Or.inl ?_)
          exact (mem_removeIdxsGo buckets.flatten ps 0 (ps.getD k ∅)).mpr
            ⟨k, hk, rfl, by simpa using hkrem⟩

/-- C1 witness: the theorem applied to a concrete two-register merge. -/
theorem partition_refinement_invariant_witness :
    validPartitioning (List.toFinset [4, 6]) (initPartitionsFromScratch [4, 6]) ∧
    validPartitioning {4, 6} (mergeStep [{4}, {6}] [[0, 1]]) := by
  have hval : validPartitioning ({4, 6} : Finset Sig) [{4}, {6}] := by
    refine ⟨?_, ?_, by decide⟩
    · intro p hp
      rcases List.mem_cons.mp hp with h | hp
      · rw [h]; exact ⟨4, by decide⟩
      · rcases List.mem_cons.mp hp with h | hp
        · rw [h]; exact ⟨6, by decide⟩
        · exact absurd hp (List.not_mem_nil p)
    · refine List.pairwise_cons.mpr ⟨?_, ?_⟩
      · intro q hq
        rcases List.mem_cons.mp hq with h | hq
        · rw [h]; exact Finset.disjoint_singleton.mpr (by decide)
        · exact absurd hq (List.not_mem_nil q)
      · exact List.pairwise_singleton _ _
  have hball : ∀ b ∈ [[0, 1]], b ≠ ([] : List Nat) := by
    intro b hb
    rcases List.mem_cons.mp hb with h | h
    · rw [h]; decide
    · exact absurd h (List.not_mem_nil b)
  have hflat : ([[0, 1]] : List (List Nat)).flatten.Nodup := by decide
  have hlt : ∀ i ∈ ([[0, 1]] : List (List Nat)).flatten,
      i < ([{4}, {6}] : List (Finset Sig)).length := by
    intro i hi
    simp at hi
    rcases hi with rfl | rfl <;> decide
  exact partition_refinement_invariant [4, 6] (by decide) {4, 6} [{4}, {6}]
    [[0, 1]] hball hflat hlt hval

theorem error_bind {α β : Type} (e : LoadError) (f : α → Except LoadError β) :
    (Except.error e >>= f : Except LoadError β) = .error e := rfl

theorem bind_eq_error {α β : Type} {m : Except LoadError α}
    {f : α → Except LoadError β} {e : LoadError}
    (h : (m >>= f) = .error e) :
    m = .error e ∨ ∃ a, m = .ok a ∧ f a = .error e := by
  cases m with
  | ok a => exact Or.inr ⟨a, rfl, h⟩
  | error e1 =>
    rw [error_bind] at h
    injection h with he
    exact Or.inl (by rw [he])

theorem foldlM_except_inv {α β : Type} (f : β → α → Except LoadError β)
    (P : β → Prop) (Q : LoadError → Prop) (l : List α)
    (hok : ∀ b a, P b → ∀ b', f b a = .ok b' → P b')
    (herr : ∀ b a, P b → ∀ e, f b a = .error e → Q e) :
    ∀ b, P b → (∀ b', l.foldlM f b = .ok b' → P b') ∧
      (∀ e, l.foldlM f b = .error e → Q e) := by
  induction l with
  | nil =>
    intro b hb
    constructor
    · intro b' h
      rw [List.foldlM_nil] at h
      rw [pure_ok] at h
      injection h with hbb
      rw [← hbb]
      exact hb
    · intro e h
      rw [List.foldlM_nil, pure_ok] at h
      simp at h
  | cons a l ih =>
    intro b hb
    rw [List.foldlM_cons]
    cases hfa : f b a with
    | ok b1 =>
      have hb1 := hok b a hb b1 hfa
      constructor
      · intro b' h
        rw [ok_bind] at h
        exact (ih b1 hb1).1 b' h
      · intro e h
        rw [ok_bind] at h
        exact (ih b1 hb1).2 e h
    | error e1 =>
      constructor
      · intro b' h
        rw [error_bind] at h
        simp at h
      · intro e h
        rw [error_bind] at h
        injection h with he
        exact he ▸ herr b a hb e1 hfa

theorem map_ok {α β : Type} (f : α → β) (a : α) :
    (f <$> (Except.ok a : Except LoadError α)) = .ok (f a) := rfl

theorem map_err {α β : Type} (f : α → β) (e : LoadError) :
    (f <$> (Except.error e : Except LoadError α)) = .error e := rfl

theorem registerPorts_inv (init : CircuitSt) (ports : List PortDecl) :
    (∀ st, registerPorts init ports = .ok st → st.sigClock = init.sigClock) ∧
    (∀ e, registerPorts init ports = .error e →
      e = .ILLEGAL_PORT_DIRECTION ∨ e = .ILLEGAL_NAME_REDECLARATION) := by
  unfold registerPorts
  refine foldlM_except_inv _
    (fun st => st.sigClock = init.sigClock)
    (fun e => e = .ILLEGAL_PORT_DIRECTION ∨ e = .ILLEGAL_NAME_REDECLARATION)
    ports ?_ ?_ init rfl
  · intro st p hst st' hstep
    split_ifs at hstep with h1 h2 h3 <;>
      simp only [throw_err, pure_ok] at hstep <;>
      (injection hstep with hrec
       rw [← hrec]
       exact hst)
  · intro st p hst e hstep
    split_ifs at hstep with h1 h2 h3 <;>
      simp only [throw_err, pure_ok] at hstep <;>
      first
      | (injection hstep with he
         first
         | exact Or.inl he.symm
         | exact Or.inr he.symm)
      | simp at hstep

theorem subVisitCell_error (topIns subIns : Finset Sig) (st : SubSt) (c : Cell)
    (e : LoadError) (h : subVisitCell topIns subIns st c = .error e) :
    e = .ILLEGAL_SUBCIRCUIT_MISSING_INPUT := by
  have hinner := foldlM_except_inv
    (fun (vs : Finset Sig) sigIn =>
      if sigIn ∈ topIns ∧ sigIn ∉ subIns then
        (throw .ILLEGAL_SUBCIRCUIT_MISSING_INPUT :
          Except LoadError (Finset Sig))
      else pure (insert sigIn vs))
    (fun _ => True) (fun e => e = .ILLEGAL_SUBCIRCUIT_MISSING_INPUT)
    c.inputs (fun b a _ b' _ => trivial)
    (fun b a _ e1 hstep => by
      have hstep2 : (if a ∈ topIns ∧ a ∉ subIns then
          (throw .ILLEGAL_SUBCIRCUIT_MISSING_INPUT :
            Except LoadError (Finset Sig))
        else pure (insert a b)) = .error e1 := hstep
      split_ifs at hstep2 with hcond
      · rw [throw_err] at hstep2
        injection hstep2 with he
        exact he.symm
      · rw [pure_ok] at hstep2; simp at hstep2)
    st.visitedSigs trivial
  unfold subVisitCell at h
  split_ifs at h with h1 h2 h3 h4 <;>
    rcases bind_eq_error h with hm | ⟨vs, hm, hf⟩ <;>
    first
    | exact hinner.2 e hm
    | exact Except.noConfusion ((pure_ok _).symm.trans hf)

theorem subPass_error (top : CircuitSt) (subIns : Finset Sig) (st : SubSt)
    (e : LoadError) (h : subPass top subIns st = .error e) :
    e = .ILLEGAL_SUBCIRCUIT_MISSING_INPUT := by
  unfold subPass at h
  have hinv := foldlM_except_inv (subVisitCell top.inPorts subIns)
    (fun _ => True) (fun e => e = .ILLEGAL_SUBCIRCUIT_MISSING_INPUT)
    top.cells.reverse
    (fun b a _ b' _ => trivial)
    (fun b a _ e1 hstep => subVisitCell_error top.inPorts subIns b a e1 hstep)
    st trivial
  exact hinv.2 e h

theorem subExplore_error (top : CircuitSt) (subIns : Finset Sig) :
    ∀ (fuel prev : Nat) (st : SubSt) (e : LoadError),
      subExplore top subIns fuel prev st = .error e →
      e = .ILLEGAL_SUBCIRCUIT_MISSING_INPUT := by
  intro fuel
  induction fuel with
  | zero =>
    intro prev st e h
    rw [subExplore] at h
    simp at h
  | succ fuel ih =>
    intro prev st e h
    rw [subExplore] at h
    split_ifs at h with hcard
    rcases bind_eq_error h with hm | ⟨st', hm, hrest⟩
    · exact subPass_error top subIns st e hm
    · exact ih _ st' e hrest

theorem copyNetName_inv (st : CircuitSt) (nb : String × List Sig) :
    (∀ st', copyNetName st nb = .ok st' → st'.sigClock = st.sigClock) ∧
    (∀ e, copyNetName st nb = .error e →
      e = .ILLEGAL_NAME_REDECLARATION) := by
  constructor
  · intro st' h
    unfold copyNetName at h
    split at h
    · split_ifs at h with hother
      injection h with hrec; rw [← hrec]
    · split_ifs at h with hany <;> injection h with hrec <;> rw [← hrec]
  · intro e h
    unfold copyNetName at h
    split at h
    · split_ifs at h with hother
      rw [throw_err] at h
      injection h with he
      exact he.symm
    · split_ifs at h with hany

theorem extract_cases (top : CircuitSt) (mn : String) (ports : List PortDecl)
    (fuel : Nat) :
    (∀ c, extractSubcircuit top mn ports fuel = .ok c → c.sigClock = S0) ∧
    (∀ e, extractSubcircuit top mn ports fuel = .error e →
      e = .ILLEGAL_PORT_DIRECTION ∨ e = .ILLEGAL_NAME_REDECLARATION ∨
      e = .ILLEGAL_SUBCIRCUIT_MISSING_INPUT ∨
      e = .ILLEGAL_SUBCIRCUIT_IMPLICIT_TOPMOD_OUTPUT) := by
  simp only [extractSubcircuit]
  cases hrp : registerPorts
      { moduleName := mn, inPorts := ∅, outPorts := ∅, regOuts := ∅,
        signals := constSigs, cells := [], nameBits := [],
        bitName := fun _ => none, sigClock := S0 } ports with
  | error e1 =>
    rw [error_bind]
    constructor
    · intro c h; simp at h
    · intro e h
      injection h with he
      subst he
      rcases (registerPorts_inv _ ports).2 e1 hrp with h | h
      · exact Or.inl h
      · exact Or.inr (Or.inl h)
  | ok st1 =>
    have hclock1 : st1.sigClock = S0 := (registerPorts_inv _ ports).1 st1 hrp
    rw [ok_bind]
    cases hse : subExplore top st1.inPorts fuel 0
        ⟨st1.outPorts, [], ∅⟩ with
    | error e2 =>
      rw [error_bind]
      constructor
      · intro c h; simp at h
      · intro e h
        injection h with he
        subst he
        exact Or.inr (Or.inr (Or.inl
          (subExplore_error top st1.inPorts fuel 0 _ e2 hse)))
    | ok sub =>
      rw [ok_bind]
      by_cases hcond : (sub.visitedSigs.filter (fun sig =>
          sig ∉ constSigs ∧ sig ∈ top.outPorts ∧ sig ∉ st1.outPorts)) ≠ ∅
      · rw [if_pos hcond, throw_err]
        constructor
        · intro c h; simp at h
        · intro e h
          injection h with he
          subst he
          exact Or.inr (Or.inr (Or.inr rfl))
      · rw [if_neg hcond]
        have hfold := foldlM_except_inv copyNetName
          (fun st => st.sigClock = S0)
          (fun e => e = .ILLEGAL_NAME_REDECLARATION) top.nameBits
          (fun b a hb b' hstep => ((copyNetName_inv b a).1 b' hstep).trans hb)
          (fun b a hb e hstep => (copyNetName_inv b a).2 e hstep)
          { st1 with signals := st1.signals ∪ sub.visitedSigs,
                     regOuts := sub.regOuts,
                     cells := top.cells.filter
                       (fun c => sub.visitedCells.contains c) }
          hclock1
        constructor
        · intro c h; exact hfold.1 c h
        · intro e h
          exact Or.inr (Or.inl (hfold.2 e h))

/-- C10: the subcircuit-extraction constructor leaves the clock at the
`S_0` "no registers" sentinel even when the extracted subcircuit
contains register cells, and performs none of the clock validations
(`ILLEGAL_CLOCK_SIGNAL`, `ILLEGAL_MULTIPLE_CLOCKS`,
`ILLEGAL_CLOCK_EDGE`) on the copied registers; the concrete extraction
of a register slice returns clock `S_0` with one register output. -/
theorem subcircuit_clock_untouched (top : CircuitSt) (mn : String)
    (ports : List PortDecl) (fuel : Nat) :
    (match extractSubcircuit top mn ports fuel with
     | .ok c => c.sigClock = S0
     | .error e => e ≠ .ILLEGAL_CLOCK_SIGNAL ∧ e ≠ .ILLEGAL_MULTIPLE_CLOCKS ∧
         e ≠ .ILLEGAL_CLOCK_EDGE) ∧
    (extractSubcircuit exTop "sub" exPorts 4).map
      (fun c => (c.sigClock, c.regOuts.card)) = .ok (S0, 1) := by
  constructor
  · cases h : extractSubcircuit top mn ports fuel with
    | ok c => exact (extract_cases top mn ports fuel).1 c h
    | error e =>
      rcases (extract_cases top mn ports fuel).2 e h with h' | h' | h' | h' <;>
        rw [h'] <;> refine ⟨by simp, by simp, by simp⟩
  · rfl

/-- C2 witness for the amended theorem: a multiplexer whose select input
equals its output is rejected with `ILLEGAL_CELL_CYCLE`. -/
theorem cell_cycle_checks_witness :
    (Ports.mux 4 5 9 9).output ∉ (⟨∅, ∅, ∅, []⟩ : LoadSt).signals ∧
    (loadCell ⟨∅, ∅, ∅, []⟩ "m" (classOfPorts (.mux 4 5 9 9))
        (connsOfPorts (.mux 4 5 9 9)) = .error .ILLEGAL_CELL_CYCLE ↔
      (Ports.mux 4 5 9 9).output ∈ cycleCheckedInputs (.mux 4 5 9 9)) := by
  refine ⟨by decide, ?_⟩
  exact (cell_cycle_checks ⟨∅, ∅, ∅, []⟩ "m" (.mux 4 5 9 9) (by decide)).1

end FaultPart
